import Mathlib

/-!
# The write-ahead buffer of forestdb (`src/wal.c`)

A shallow embedding of `wal.c` and a verification of its specification.

The buffer is a set of `struct wal_item` blocks allocated from the memory
pool; every block is linked both into a hash table (through its `hash_elem`)
and into an order list (through its `list_elem`).  The embedding keeps that
shape: a heap of blocks addressed by number, a hash table whose chains hold
addresses, and an order list of addresses.

What `wal.c` uses but does not define is kept apart:

* `keylen_t`, `__WAL_KEY_COPY` and `hash_djb2` are parameters (`Env`);
* the generic hash table and linked list (`hash.h`, `list.h`) and the memory
  pool are modelled from the specification, each under a doc comment that
  says so.
-/

namespace Wal

/-! ## Data model -/

/-- One byte of a key. -/
abbrev Byte := Fin 256

/-- The tag `wal_item_action`. -/
inductive wal_item_action where
  | WAL_ACT_INSERT
  | WAL_ACT_REMOVE
  deriving DecidableEq, Repr

/-- The result code `wal_result`. -/
inductive wal_result where
  | WAL_RESULT_SUCCESS
  | WAL_RESULT_FAIL
  deriving DecidableEq, Repr

open wal_item_action wal_result

/-- What `wal.c` takes from headers that are not part of the source tree.

* `keylen_bits`: the width of the unsigned type `keylen_t`;
* `WAL_KEY_COPY`: whether `__WAL_KEY_COPY` is defined at build time.  Without
  it an entry made by `wal_insert` keeps the caller's key pointer; the
  embedding takes the bytes behind it to stay as they were at the call, which
  is what the caller has to guarantee;
* `hash_djb2`: the function of `hash_functions.h`, applied to the bytes it
  is asked to read. -/
structure Env where
  keylen_bits : Nat
  WAL_KEY_COPY : Bool
  hash_djb2 : List Byte → Nat

/-- The fields of `struct wal_item` that carry data.  `key` is the content of
the buffer the `key` pointer refers to; `offset` is `none` as long as the
field has not been written since the block was allocated.  The two link
fields `hash_elem` and `list_elem` are represented by the address of the
block being a member of a chain and of the order list. -/
structure wal_item where
  key : List Byte
  action : wal_item_action
  keylen : Nat
  offset : Option Nat
  deriving DecidableEq, Repr

/-- Modelled from the spec: the generic hash table of `hash.h` ("a hash table
keyed by a pluggable hash function and equality comparator over opaque byte
buckets"): `nbuckets` chains of element addresses. -/
structure hash where
  nbuckets : Nat
  buckets : List (List Nat)
  deriving DecidableEq, Repr

/-- The `struct wal` a file manager points to.  `list` is the order list
(modelled from the spec: "a doubly-linked list supporting O(1) push-front
and O(1) arbitrary-node removal"), as the sequence of element addresses from
head to tail.  `size` counts blocks that are allocated at the same time, each
at its own address, so the counter of the source cannot wrap around; it is a
natural number here. -/
structure wal where
  size : Nat
  hash : hash
  list : List Nat
  deriving DecidableEq, Repr

/-- The state `wal.c` works on: the blocks of the memory pool (`none` is a
block that has been freed) and the `struct wal` of the file. -/
structure filemgr where
  heap : List (Option wal_item)
  wal : wal
  deriving DecidableEq, Repr

/-- One invocation of the flush callback:
`func(dbhandle, key, keylen, offset, action)`; `key` is the `keylen` bytes
the callback can read behind the key pointer. -/
structure flush_call where
  key : List Byte
  keylen : Nat
  offset : Option Nat
  action : wal_item_action
  deriving DecidableEq, Repr

/-! ## The memory pool and the two containers -/

/-- Modelled from the spec: reading the block at address `p` of the memory
pool; `none` when no live block is there. -/
def deref (heap : List (Option wal_item)) (p : Nat) : Option wal_item :=
  match heap[p]? with
  | some (some it) => some it
  | _ => none

/-- Modelled from the spec: `mempool_alloc` hands out a block at an address
that is not in use; here the next address never used before. -/
def mempool_alloc (heap : List (Option wal_item)) : Nat := heap.length

/-- Modelled from the spec: `mempool_free` releases the block at `p`. -/
def mempool_free (heap : List (Option wal_item)) (p : Nat) : List (Option wal_item) :=
  heap.set p none

/-- Conversion of an unsigned value to `int` (32 bits, two's complement). -/
def to_int (x : Nat) : Int :=
  if x % 2 ^ 32 < 2 ^ 31 then (x % 2 ^ 32 : Nat) else ((x % 2 ^ 32 : Nat) : Int) - 2 ^ 32

/-- Subtraction of two `int`s, wrapping to 32 bits. -/
def int_sub (a b : Int) : Int :=
  to_int ((a - b) % 2 ^ 32).toNat

/-- The libc `memcmp` on the first `n` bytes of two buffers: zero when they
agree, otherwise the difference of the first pair of bytes that differ.  A
buffer that ends before `n` bytes compares as smaller (the source never asks
for more bytes than a buffer holds). -/
def memcmp : List Byte → List Byte → Nat → Int
  | _, _, 0 => 0
  | [], [], _ + 1 => 0
  | [], _ :: _, _ + 1 => -1
  | _ :: _, [], _ + 1 => 1
  | a :: as, b :: bs, n + 1 =>
    if a = b then memcmp as bs n else (a.val : Int) - (b.val : Int)

/-- `_wal_hash` (wal.c:37): djb2 over the first `MIN(8, keylen)` bytes of the
key, masked with `(uint64_t)nbuckets - 1`, returned as `uint32_t`. -/
def _wal_hash (E : Env) (h : hash) (item : wal_item) : Nat :=
  ((E.hash_djb2 (item.key.take (min 8 item.keylen)) % 2 ^ 32) &&&
    ((h.nbuckets % 2 ^ 64 + (2 ^ 64 - 1)) % 2 ^ 64)) % 2 ^ 32

/-- `_wal_cmp` (wal.c:43): the difference of the key lengths when they differ,
otherwise `memcmp` over `aa->keylen` bytes. -/
def _wal_cmp (aa bb : wal_item) : Int :=
  if aa.keylen ≠ bb.keylen then int_sub (to_int aa.keylen) (to_int bb.keylen)
  else memcmp aa.key bb.key aa.keylen

/-- Modelled from the spec: `hash_init` of `hash.h`, a table of `nbuckets`
empty chains. -/
def hash_init (nbuckets : Nat) : hash :=
  { nbuckets := nbuckets, buckets := List.replicate nbuckets [] }

/-- The chain of bucket `b`. -/
def hash.chain (h : hash) (b : Nat) : List Nat := h.buckets.getD b []

/-- Modelled from the spec: `hash_find` of `hash.h`.  The chain is the one
selected by the hash function applied to the query element; the result is
the first element of it that the comparator reports equal to the query. -/
def hash_find (E : Env) (heap : List (Option wal_item)) (h : hash) (query : wal_item) :
    Option Nat :=
  (h.chain (_wal_hash E h query)).find? fun p =>
    match deref heap p with
    | some it => decide (_wal_cmp query it = 0)
    | none => false

/-- Modelled from the spec: `hash_insert` of `hash.h`, linking the element at
address `p` (holding `item`) into the chain its hash selects. -/
def hash_insert (E : Env) (h : hash) (p : Nat) (item : wal_item) : hash :=
  let b := _wal_hash E h item
  { h with buckets := h.buckets.set b (p :: h.chain b) }

/-- Modelled from the spec: `hash_remove` of `hash.h`, unlinking the element
at address `p` (holding `item`) from the chain its hash selects. -/
def hash_remove (E : Env) (h : hash) (p : Nat) (item : wal_item) : hash :=
  let b := _wal_hash E h item
  { h with buckets := h.buckets.set b ((h.chain b).erase p) }

/-- Modelled from the spec: `list_init`, the empty list. -/
def list_init : List Nat := []

/-- Modelled from the spec: `list_push_front`. -/
def list_push_front (l : List Nat) (e : Nat) : List Nat := e :: l

/-- Modelled from the spec: `list_begin`, the head element if any. -/
def list_begin (l : List Nat) : Option Nat := l.head?

/-- Modelled from the spec: `list_remove`, unlinking `e`. -/
def list_remove (l : List Nat) (e : Nat) : List Nat := l.erase e

/-! ## The functions of `wal.c` -/

/-- The stack object `query` of `wal_insert`, `wal_find` and `wal_remove`:
`query.key = key; query.keylen = keylen;`, the assignment to `keylen`
converting `size_t` to `keylen_t`.  The other fields are not read. -/
def mk_query (E : Env) (key : List Byte) (keylen : Nat) : wal_item :=
  { key := key, keylen := keylen % 2 ^ E.keylen_bits, action := WAL_ACT_INSERT, offset := none }

/-- `wal_init` (wal.c:54). Returns `WAL_RESULT_SUCCESS`. -/
def wal_init (file : filemgr) (nbucket : Nat) : filemgr :=
  { file with wal := { size := 0, hash := hash_init nbucket, list := list_init } }

/-- `wal_insert` (wal.c:65). Returns `WAL_RESULT_SUCCESS` on both paths; the
value here is the state it leaves.  (The branch for an element that is not a
live block keeps the function total; `Linked.alive` shows that the hash table
never holds such an element.) -/
def wal_insert (E : Env) (file : filemgr) (key : List Byte) (keylen : Nat) (offset : Nat) :
    filemgr :=
  let query := mk_query E key keylen
  match hash_find E file.heap file.wal.hash query with
  | some e =>
    match deref file.heap e with
    | some item =>
      let item1 : wal_item := { item with offset := some offset, action := WAL_ACT_INSERT }
      { file with heap := file.heap.set e (some item1) }
    | none => file
  | none =>
    let p := mempool_alloc file.heap
    let kl := keylen % 2 ^ E.keylen_bits
    let item : wal_item :=
      { keylen := kl
        key := if E.WAL_KEY_COPY then key.take kl else key
        action := WAL_ACT_INSERT
        offset := some offset }
    { heap := file.heap ++ [some item]
      wal :=
        { hash := hash_insert E file.wal.hash p item
          list := list_push_front file.wal.list p
          size := file.wal.size + 1 } }

/-- `wal_find` (wal.c:98): the result code and what is written to `*offset`
(`none`: nothing is written). -/
def wal_find (E : Env) (file : filemgr) (key : List Byte) (keylen : Nat) :
    wal_result × Option Nat :=
  let query := mk_query E key keylen
  match hash_find E file.heap file.wal.hash query with
  | some e =>
    match deref file.heap e with
    | some item =>
      if item.action = WAL_ACT_INSERT then (WAL_RESULT_SUCCESS, item.offset)
      else (WAL_RESULT_FAIL, none)
    | none => (WAL_RESULT_FAIL, none)
  | none => (WAL_RESULT_FAIL, none)

/-- `wal_remove` (wal.c:116). Returns `WAL_RESULT_SUCCESS` on every path; the
value here is the state it leaves.  The key of a new tombstone is always
copied, and its `offset` field is not written. -/
def wal_remove (E : Env) (file : filemgr) (key : List Byte) (keylen : Nat) : filemgr :=
  let query := mk_query E key keylen
  match hash_find E file.heap file.wal.hash query with
  | some e =>
    match deref file.heap e with
    | some item =>
      if item.action = WAL_ACT_INSERT then
        { file with heap := file.heap.set e (some { item with action := WAL_ACT_REMOVE }) }
      else file
    | none => file
  | none =>
    let p := mempool_alloc file.heap
    let kl := keylen % 2 ^ E.keylen_bits
    let item : wal_item :=
      { keylen := kl
        key := key.take kl
        action := WAL_ACT_REMOVE
        offset := none }
    { heap := file.heap ++ [some item]
      wal :=
        { hash := hash_insert E file.wal.hash p item
          list := list_push_front file.wal.list p
          size := file.wal.size + 1 } }

/-- The `while (e)` loop of `wal_flush` (wal.c:156).  The first argument is
the part of the order list from the cursor `e` to the tail: each round takes
the element under the cursor, advances the cursor to its successor
(`e = list_remove(...)`), unlinks the element from the list and from the hash
table, calls `func`, and frees the block.  The calls made are collected in
order. -/
def wal_flush_loop (E : Env) : List Nat → filemgr → List flush_call → List flush_call × filemgr
  | [], file, calls => (calls, file)
  | e :: next, file, calls =>
    match deref file.heap e with
    | some item =>
      let l := list_remove file.wal.list e
      let h := hash_remove E file.wal.hash e item
      let call : flush_call :=
        { key := item.key.take item.keylen, keylen := item.keylen
          offset := item.offset, action := item.action }
      wal_flush_loop E next
        { heap := mempool_free file.heap e
          wal := { file.wal with hash := h, list := l } }
        (calls ++ [call])
    | none => wal_flush_loop E next file calls

/-- `wal_flush` (wal.c:142): the calls of `func`, in the order they are made,
and the state left.  The cursor starts at `list_begin`, the head of the order
list; after the loop `size` is set to 0.  Returns `WAL_RESULT_SUCCESS`. -/
def wal_flush (E : Env) (file : filemgr) : List flush_call × filemgr :=
  let r := wal_flush_loop E file.wal.list file []
  (r.1, { r.2 with wal := { r.2.wal with size := 0 } })

/-- `wal_get_size` (wal.c:178). -/
def wal_get_size (file : filemgr) : Nat := file.wal.size

/-! ## The comparator and the hash function -/

/-- What the comparator looks at in an element: the stored key length and the
bytes of the key it covers. -/
def ident (it : wal_item) : Nat × List Byte := (it.keylen, it.key.take it.keylen)

/-- The identity under which a caller's key of `keylen` bytes is looked up. -/
def key_ident (E : Env) (key : List Byte) (keylen : Nat) : Nat × List Byte :=
  ident (mk_query E key keylen)

/-! ## The linking invariant -/

/-- The entries of the buffer, in order-list order from head to tail. -/
def live (s : filemgr) : List wal_item := s.wal.list.filterMap (deref s.heap)

/-- The linking invariant of a store: the hash table has its buckets, the
chains together hold exactly the elements of the order list, each once; every
element is a live block, sits in the chain its hash selects, and no two
elements carry the same key. -/
structure Linked (E : Env) (s : filemgr) : Prop where
  nb_pos : 0 < s.wal.hash.nbuckets
  nb_len : s.wal.hash.buckets.length = s.wal.hash.nbuckets
  perm : s.wal.hash.buckets.flatten.Perm s.wal.list
  nodup : s.wal.list.Nodup
  alive : ∀ p ∈ s.wal.list, ∃ it, deref s.heap p = some it ∧ it.keylen < 2 ^ 32
  placed : ∀ b p it, p ∈ s.wal.hash.chain b → deref s.heap p = some it →
    _wal_hash E s.wal.hash it = b
  uniq : ∀ p q ip iq, p ∈ s.wal.list → q ∈ s.wal.list → deref s.heap p = some ip →
    deref s.heap q = some iq → ident ip = ident iq → p = q

/-- The state left by linking a newly allocated block: the shape both
`wal_insert` and `wal_remove` produce for a key without an entry. -/
def link_new (E : Env) (s : filemgr) (new : wal_item) : filemgr :=
  { heap := s.heap ++ [some new]
    wal :=
      { hash := hash_insert E s.wal.hash (mempool_alloc s.heap) new
        list := list_push_front s.wal.list (mempool_alloc s.heap)
        size := s.wal.size + 1 } }

/-! ## The buffer as a list of entries

The functions of `wal.c`, seen through `live`, act on the list of entries.
The definitions below describe that action; the theorems further down show
that the functions of `wal.c` follow it on every linked store. -/

/-- The block `wal_insert` sets up for a key without an entry. -/
def new_insert_item (E : Env) (key : List Byte) (keylen : Nat) (offset : Nat) : wal_item :=
  { keylen := keylen % 2 ^ E.keylen_bits
    key := if E.WAL_KEY_COPY then key.take (keylen % 2 ^ E.keylen_bits) else key
    action := WAL_ACT_INSERT
    offset := some offset }

/-- The block `wal_remove` sets up for a key without an entry. -/
def new_remove_item (E : Env) (key : List Byte) (keylen : Nat) : wal_item :=
  { keylen := keylen % 2 ^ E.keylen_bits
    key := key.take (keylen % 2 ^ E.keylen_bits)
    action := WAL_ACT_REMOVE
    offset := none }

/-- The entry with a given identity, if there is one. -/
def entry_of (L : List wal_item) (id : Nat × List Byte) : Option wal_item :=
  L.find? (fun it => decide (ident it = id))

/-- What `wal_insert` writes to the block of an existing entry (wal.c:75). -/
def upd_insert (offset : Nat) (item : wal_item) : wal_item :=
  { item with offset := some offset, action := WAL_ACT_INSERT }

/-- What `wal_remove` writes to the block of an existing entry (wal.c:126). -/
def upd_remove (item : wal_item) : wal_item :=
  if item.action = WAL_ACT_INSERT then { item with action := WAL_ACT_REMOVE } else item

/-- The action of `wal_insert` on the list of entries. -/
def abs_insert (E : Env) (L : List wal_item) (key : List Byte) (keylen : Nat) (offset : Nat) :
    List wal_item :=
  match entry_of L (key_ident E key keylen) with
  | some _ => L.map fun x => if ident x = key_ident E key keylen then upd_insert offset x else x
  | none => new_insert_item E key keylen offset :: L

/-- The action of `wal_remove` on the list of entries. -/
def abs_remove (E : Env) (L : List wal_item) (key : List Byte) (keylen : Nat) : List wal_item :=
  match entry_of L (key_ident E key keylen) with
  | some _ => L.map fun x => if ident x = key_ident E key keylen then upd_remove x else x
  | none => new_remove_item E key keylen :: L

/-- The result of `wal_find` in terms of the list of entries. -/
def abs_find (E : Env) (L : List wal_item) (key : List Byte) (keylen : Nat) :
    wal_result × Option Nat :=
  match entry_of L (key_ident E key keylen) with
  | some item =>
    if item.action = WAL_ACT_INSERT then (WAL_RESULT_SUCCESS, item.offset)
    else (WAL_RESULT_FAIL, none)
  | none => (WAL_RESULT_FAIL, none)

/-- The calls of the flush callback for a list of entries. -/
def call_of (item : wal_item) : flush_call :=
  { key := item.key.take item.keylen, keylen := item.keylen
    offset := item.offset, action := item.action }

/-- The invariant of the store: it is linked and `size` counts the elements of
the order list. -/
def Inv (E : Env) (s : filemgr) : Prop :=
  Linked E s ∧ s.wal.size = s.wal.list.length

/-! ## Flushing -/

/-- The state after one round of the loop of `wal_flush` on the element `e`
holding `item`. -/
def unlink (E : Env) (s : filemgr) (e : Nat) (item : wal_item) : filemgr :=
  { heap := mempool_free s.heap e
    wal := { s.wal with hash := hash_remove E s.wal.hash e item, list := list_remove s.wal.list e } }

/-! ## Reachable stores -/

/-- The stores the public interface can produce: `wal_init` with at least one
bucket (with none, every access to a chain would be out of bounds), followed
by any calls of `wal_insert`, `wal_remove`, `wal_find`, `wal_get_size` and
`wal_flush`, each key being passed with its length.  `wal_find` and
`wal_get_size` only read the store, so they leave it as it is. -/
inductive Reachable (E : Env) : filemgr → Prop where
  | init (file : filemgr) (nbucket : Nat) (h : 0 < nbucket) : Reachable E (wal_init file nbucket)
  | insert {s : filemgr} (key : List Byte) (offset : Nat) (h : Reachable E s) :
      Reachable E (wal_insert E s key key.length offset)
  | remove {s : filemgr} (key : List Byte) (h : Reachable E s) :
      Reachable E (wal_remove E s key key.length)
  | find {s : filemgr} (key : List Byte) (h : Reachable E s) : Reachable E s
  | get_size {s : filemgr} (h : Reachable E s) : Reachable E s
  | flush {s : filemgr} (h : Reachable E s) : Reachable E (wal_flush E s).2

/-- The stores right after `wal_init` or right after a `wal_flush`. -/
inductive Drained (E : Env) : filemgr → Prop where
  | init (file : filemgr) (nbucket : Nat) (h : 0 < nbucket) : Drained E (wal_init file nbucket)
  | flush {s : filemgr} (h : Reachable E s) : Drained E (wal_flush E s).2

/-- A mutating call: `wal_insert(key, keylen, offset)` or
`wal_remove(key, keylen)`, the key given as its `keylen` bytes. -/
inductive Op where
  | insert (key : List Byte) (offset : Nat)
  | remove (key : List Byte)
  deriving DecidableEq, Repr

/-- The key a call is about. -/
def Op.key : Op → List Byte
  | Op.insert k _ => k
  | Op.remove k => k

/-- Making one call. -/
def apply_op (E : Env) (s : filemgr) : Op → filemgr
  | Op.insert k o => wal_insert E s k k.length o
  | Op.remove k => wal_remove E s k k.length

/-- Making a sequence of calls, first to last. -/
def run_ops (E : Env) (s : filemgr) (ops : List Op) : filemgr :=
  ops.foldl (apply_op E) s

/-- The most recent call of a sequence that is about the key `k`. -/
def last_call (ops : List Op) (k : List Byte) : Option Op :=
  ops.reverse.find? (fun op => decide (op.key = k))

/-! ## Sequences of calls -/

/-- The djb2 string hash, on 32 bits: the usual definition of the function
`hash_djb2` is a parameter for. -/
def djb2 (bytes : List Byte) : Nat :=
  bytes.foldl (fun h c => ((h <<< 5) + h + c.val) % 2 ^ 32) 5381

/-- An instance with a 16-bit `keylen_t`, keys linked and not copied. -/
def env16 : Env := { keylen_bits := 16, WAL_KEY_COPY := false, hash_djb2 := djb2 }

/-- A file manager whose `struct wal` has not been set up yet. -/
def blank : filemgr :=
  { heap := [], wal := { size := 0, hash := { nbuckets := 0, buckets := [] }, list := [] } }

/-- The key "alice". -/
def alice : List Byte := [97, 108, 105, 99, 101]

/-- The key "bob". -/
def bob : List Byte := [98, 111, 98]

/-- The key "carol". -/
def carol : List Byte := [99, 97, 114, 111, 108]

/-- The calls of the scenario of the specification, after `init(16)`. -/
def scenario : List Op :=
  [Op.insert alice 100, Op.insert bob 200, Op.remove alice, Op.insert carol 300]

/-! ## The calls of the flush callback -/

/-- A call of the interface other than `wal_init` and `wal_flush`, every key
given as its `keylen` bytes. -/
inductive Call where
  | insert (key : List Byte) (offset : Nat)
  | remove (key : List Byte)
  | find (key : List Byte)
  | get_size
  deriving DecidableEq, Repr

/-- What a call gives back to the caller. -/
inductive Reply where
  | done (r : wal_result)
  | found (r : wal_result) (offset : Option Nat)
  | size (n : Nat)
  deriving DecidableEq, Repr

/-- Making a call: what it gives back and the store it leaves. -/
def do_call (E : Env) (s : filemgr) : Call → Reply × filemgr
  | Call.insert k o => (Reply.done WAL_RESULT_SUCCESS, wal_insert E s k k.length o)
  | Call.remove k => (Reply.done WAL_RESULT_SUCCESS, wal_remove E s k k.length)
  | Call.find k => (Reply.found (wal_find E s k k.length).1 (wal_find E s k k.length).2, s)
  | Call.get_size => (Reply.size (wal_get_size s), s)

/-- Making a sequence of calls: what they give back, in order. -/
def run_calls (E : Env) (s : filemgr) : List Call → List Reply
  | [] => []
  | c :: cs => (do_call E s c).1 :: run_calls E (do_call E s c).2 cs

/-! ## The scenario store -/

/-- The store the scenario of the specification leaves on `env16`. -/
def scenario_store : filemgr := run_ops env16 (wal_init blank 16) scenario

/-! ## Key identity -/

/-- The element `wal_insert`, `wal_find` and `wal_remove` resolve a key to:
the result of the `hash_find` they all start with. -/
def resolve (E : Env) (s : filemgr) (key : List Byte) (keylen : Nat) : Option Nat :=
  hash_find E s.heap s.wal.hash (mk_query E key keylen)

/-- The block the key resolves to, if any: what `wal_insert`, `wal_find` and
`wal_remove` get from `_get_entry` after a successful `hash_find`. -/
def entry (E : Env) (s : filemgr) (key : List Byte) (keylen : Nat) : Option wal_item :=
  (resolve E s key keylen).bind (deref s.heap)

/-- The state of a key in the buffer: `none` when it has no entry (absent),
otherwise the action of its entry. -/
def key_state (E : Env) (s : filemgr) (key : List Byte) (keylen : Nat) :
    Option wal_item_action :=
  (entry E s key keylen).map wal_item.action

/-- The store a sequence of calls leaves. -/
def run_calls_state (E : Env) (s : filemgr) (calls : List Call) : filemgr :=
  calls.foldl (fun t c => (do_call E t c).2) s

/-- Every `INSERT` entry of the list has an offset that was written. -/
def Written (L : List wal_item) : Prop :=
  ∀ it ∈ L, it.action = WAL_ACT_INSERT → ∃ o, it.offset = some o

/-! ## The comparator and the hash function, as functions -/

/-- The 32-bit value `hash_djb2` returns for an element: djb2 over the first
`MIN(8, keylen)` bytes of its key. -/
def djb2_value (E : Env) (item : wal_item) : Nat :=
  E.hash_djb2 (item.key.take (min 8 item.keylen)) % 2 ^ 32

/-- The mask of `_wal_hash`: `(uint64_t)hash->nbuckets - 1`. -/
def bucket_mask (h : hash) : Nat := (h.nbuckets % 2 ^ 64 + (2 ^ 64 - 1)) % 2 ^ 64

/-! ## What a call leaves alone -/

/-- The call of the flush callback with the action replaced by `REMOVE`. -/
def as_remove (c : flush_call) : flush_call := { c with action := WAL_ACT_REMOVE }

/-- The element with the action replaced by `REMOVE` (wal.c:127). -/
def tombstone_of (item : wal_item) : wal_item := { item with action := WAL_ACT_REMOVE }

/-! # Theorems -/

/-! ## The comparator and the hash function -/

theorem int_sub_to_int_eq_zero (a b : Nat) (ha : a < 2 ^ 32) (hb : b < 2 ^ 32) :
    int_sub (to_int a) (to_int b) = 0 ↔ a = b := by
  unfold int_sub to_int
  have ha' : a % 2 ^ 32 = a := Nat.mod_eq_of_lt ha
  have hb' : b % 2 ^ 32 = b := Nat.mod_eq_of_lt hb
  rw [ha', hb']
  norm_num at ha hb ⊢
  split_ifs <;> omega

theorem memcmp_eq_zero (a b : List Byte) (n : Nat) :
    memcmp a b n = 0 ↔ a.take n = b.take n := by
  induction n generalizing a b with
  | zero => simp [memcmp]
  | succ n ih =>
    cases a with
    | nil => cases b <;> simp [memcmp]
    | cons x xs =>
      cases b with
      | nil => simp [memcmp]
      | cons y ys =>
        simp only [memcmp, List.take_succ_cons, List.cons.injEq]
        by_cases hxy : x = y
        · simp [hxy, ih]
        · simp only [hxy, if_false, false_and, iff_false]
          intro h
          apply hxy
          apply Fin.ext
          omega

theorem wal_cmp_eq_zero (a b : wal_item) (ha : a.keylen < 2 ^ 32) (hb : b.keylen < 2 ^ 32) :
    _wal_cmp a b = 0 ↔ ident a = ident b := by
  unfold _wal_cmp ident
  by_cases h : a.keylen = b.keylen
  · simp [h, memcmp_eq_zero]
  · simp only [ne_eq, h, not_false_eq_true, if_true, Prod.mk.injEq, false_and, iff_false]
    rw [int_sub_to_int_eq_zero _ _ ha hb]
    exact h

theorem wal_hash_ident (E : Env) (h : hash) (a b : wal_item) (hab : ident a = ident b) :
    _wal_hash E h a = _wal_hash E h b := by
  unfold ident at hab
  simp only [Prod.mk.injEq] at hab
  have key : ∀ it : wal_item, it.key.take (min 8 it.keylen) =
      (it.key.take it.keylen).take (min 8 it.keylen) := by
    intro it
    rw [List.take_take]
    congr 1
    omega
  unfold _wal_hash
  rw [key a, key b, hab.2, hab.1]

theorem wal_hash_nbuckets (E : Env) (h h' : hash) (it : wal_item)
    (hn : h'.nbuckets = h.nbuckets) : _wal_hash E h' it = _wal_hash E h it := by
  unfold _wal_hash
  rw [hn]

theorem wal_hash_lt (E : Env) (h : hash) (it : wal_item) (hpos : 0 < h.nbuckets) :
    _wal_hash E h it < h.nbuckets := by
  unfold _wal_hash
  have h1 := @Nat.and_le_right (E.hash_djb2 (it.key.take (min 8 it.keylen)) % 2 ^ 32)
    ((h.nbuckets % 2 ^ 64 + (2 ^ 64 - 1)) % 2 ^ 64)
  have h2 := Nat.mod_le ((E.hash_djb2 (it.key.take (min 8 it.keylen)) % 2 ^ 32) &&&
    ((h.nbuckets % 2 ^ 64 + (2 ^ 64 - 1)) % 2 ^ 64)) (2 ^ 32)
  have h3 : (h.nbuckets % 2 ^ 64 + (2 ^ 64 - 1)) % 2 ^ 64 < h.nbuckets := by
    norm_num
    omega
  omega

/-! ## The memory pool -/

theorem deref_lt {heap : List (Option wal_item)} {p : Nat} {it : wal_item}
    (h : deref heap p = some it) : p < heap.length := by
  by_contra hlt
  have : heap[p]? = none := List.getElem?_eq_none (by omega)
  simp [deref, this] at h

theorem deref_length (heap : List (Option wal_item)) : deref heap heap.length = none := by
  simp [deref]

theorem deref_set_ne (heap : List (Option wal_item)) (p r : Nat) (v : Option wal_item)
    (hne : r ≠ p) : deref (heap.set p v) r = deref heap r := by
  unfold deref
  rw [List.getElem?_set_ne (Ne.symm hne)]

theorem deref_set_eq (heap : List (Option wal_item)) (p : Nat) (v : Option wal_item)
    (hlt : p < heap.length) : deref (heap.set p v) p = v := by
  unfold deref
  rw [List.getElem?_set_self hlt]
  cases v <;> rfl

theorem deref_append_lt (heap : List (Option wal_item)) (x : Option wal_item) (r : Nat)
    (hlt : r < heap.length) : deref (heap ++ [x]) r = deref heap r := by
  unfold deref
  rw [List.getElem?_append_left hlt]

theorem deref_append_length (heap : List (Option wal_item)) (it : wal_item) :
    deref (heap ++ [some it]) heap.length = some it := by
  simp [deref]

/-! ## The chains of the hash table -/

theorem chain_set_same (h : hash) (b : Nat) (v : List Nat) (hb : b < h.buckets.length) :
    hash.chain { h with buckets := h.buckets.set b v } b = v := by
  simp [hash.chain, List.getD_eq_getElem?_getD, List.getElem?_set_self hb]

theorem chain_set_ne (h : hash) (b c : Nat) (v : List Nat) (hne : b ≠ c) :
    hash.chain { h with buckets := h.buckets.set b v } c = h.chain c := by
  simp [hash.chain, List.getD_eq_getElem?_getD, List.getElem?_set_ne hne]

theorem mem_join_of_mem_chain {h : hash} {b p : Nat} (hp : p ∈ h.chain b) :
    p ∈ h.buckets.flatten := by
  unfold hash.chain at hp
  rw [List.getD_eq_getElem?_getD] at hp
  by_cases hb : b < h.buckets.length
  · rw [List.getElem?_eq_getElem hb] at hp
    simp only [Option.getD_some] at hp
    exact List.mem_flatten.2 ⟨_, List.getElem_mem hb, hp⟩
  · rw [List.getElem?_eq_none (by omega)] at hp
    simp at hp

theorem exists_chain_of_mem_join {h : hash} {p : Nat} (hp : p ∈ h.buckets.flatten) :
    ∃ b, b < h.buckets.length ∧ p ∈ h.chain b := by
  obtain ⟨c, hc, hpc⟩ := List.mem_flatten.1 hp
  obtain ⟨b, hb, rfl⟩ := List.getElem_of_mem hc
  refine ⟨b, hb, ?_⟩
  unfold hash.chain
  rw [List.getD_eq_getElem?_getD, List.getElem?_eq_getElem hb]
  exact hpc

theorem join_set_cons_perm (L : List (List Nat)) (b p : Nat) (hb : b < L.length) :
    (L.set b (p :: L.getD b [])).flatten.Perm (p :: L.flatten) := by
  induction L generalizing b with
  | nil => simp at hb
  | cons l L ih =>
    cases b with
    | zero => simp
    | succ b =>
      simp only [List.length_cons, Nat.add_lt_add_iff_right] at hb
      simp only [List.set_cons_succ, List.flatten_cons, List.getD_cons_succ]
      exact ((ih b hb).append_left l).trans List.perm_middle

theorem join_set_erase_perm (L : List (List Nat)) (b p : Nat) (hb : b < L.length)
    (hp : p ∈ L.getD b []) :
    (p :: (L.set b ((L.getD b []).erase p)).flatten).Perm L.flatten := by
  induction L generalizing b with
  | nil => simp at hb
  | cons l L ih =>
    cases b with
    | zero =>
      simp only [List.getD_cons_zero] at hp
      simp only [List.set_cons_zero, List.flatten_cons, List.getD_cons_zero]
      exact ((List.perm_cons_erase hp).symm.append_right L.flatten)
    | succ b =>
      simp only [List.length_cons, Nat.add_lt_add_iff_right] at hb
      simp only [List.getD_cons_succ] at hp
      simp only [List.set_cons_succ, List.flatten_cons, List.getD_cons_succ]
      exact List.perm_middle.symm.trans ((ih b hb hp).append_left l)

/-! ## The linking invariant -/

theorem mk_query_keylen_lt (E : Env) (hW : E.keylen_bits ≤ 32) (key : List Byte) (keylen : Nat) :
    (mk_query E key keylen).keylen < 2 ^ 32 := by
  unfold mk_query
  have h1 : keylen % 2 ^ E.keylen_bits < 2 ^ E.keylen_bits := Nat.mod_lt _ (by positivity)
  have h2 : 2 ^ E.keylen_bits ≤ 2 ^ 32 := Nat.pow_le_pow_right (by norm_num) hW
  exact lt_of_lt_of_le h1 h2

theorem Linked.mem_chain {E : Env} {s : filemgr} (hL : Linked E s) {p : Nat} {it : wal_item}
    (hp : p ∈ s.wal.list) (hit : deref s.heap p = some it) :
    p ∈ s.wal.hash.chain (_wal_hash E s.wal.hash it) := by
  have hj : p ∈ s.wal.hash.buckets.flatten := hL.perm.mem_iff.2 hp
  obtain ⟨b, _, hb⟩ := exists_chain_of_mem_join hj
  have := hL.placed b p it hb hit
  rw [this]
  exact hb

theorem hash_find_some {E : Env} {s : filemgr} (hL : Linked E s) {q : wal_item}
    (hq : q.keylen < 2 ^ 32) {p : Nat} (h : hash_find E s.heap s.wal.hash q = some p) :
    p ∈ s.wal.list ∧ ∃ it, deref s.heap p = some it ∧ ident it = ident q := by
  unfold hash_find at h
  have hmem := List.mem_of_find?_eq_some h
  have hP := List.find?_some h
  have hp : p ∈ s.wal.list := hL.perm.mem_iff.1 (mem_join_of_mem_chain hmem)
  refine ⟨hp, ?_⟩
  obtain ⟨it, hit, hlt⟩ := hL.alive p hp
  refine ⟨it, hit, ?_⟩
  rw [hit] at hP
  simp only [decide_eq_true_eq] at hP
  exact ((wal_cmp_eq_zero q it hq hlt).1 hP).symm

theorem hash_find_none {E : Env} {s : filemgr} (hL : Linked E s) {q : wal_item}
    (hq : q.keylen < 2 ^ 32) (h : hash_find E s.heap s.wal.hash q = none) :
    ∀ p ∈ s.wal.list, ∀ it, deref s.heap p = some it → ident it ≠ ident q := by
  intro p hp it hit hid
  unfold hash_find at h
  rw [List.find?_eq_none] at h
  have hc := hL.mem_chain hp hit
  rw [wal_hash_ident E _ it q hid] at hc
  have := h p hc
  rw [hit] at this
  obtain ⟨it', hit', hlt⟩ := hL.alive p hp
  rw [hit] at hit'
  cases hit'
  simp only [decide_eq_true_eq] at this
  exact this ((wal_cmp_eq_zero q it hq hlt).2 hid.symm)

theorem find_filterMap_some {α : Type} (l : List Nat) (f : Nat → Option α) (P : α → Bool)
    (p : Nat) (it : α) (hp : p ∈ l) (hf : f p = some it) (hP : P it = true)
    (hu : ∀ r ∈ l, ∀ x, f r = some x → P x = true → r = p) :
    (l.filterMap f).find? P = some it := by
  induction l with
  | nil => simp at hp
  | cons r l ih =>
    cases hfr : f r with
    | none =>
      rw [List.filterMap_cons_none hfr]
      have hne : r ≠ p := by
        intro h
        rw [h, hf] at hfr
        cases hfr
      rcases List.mem_cons.1 hp with h | h
      · exact absurd h.symm hne
      · exact ih h (fun r' hr' => hu r' (List.mem_cons_of_mem _ hr'))
    | some x =>
      rw [List.filterMap_cons_some hfr]
      by_cases hPx : P x = true
      · have hrp := hu r (List.mem_cons_self _ _) x hfr hPx
        rw [hrp, hf] at hfr
        cases hfr
        simp [List.find?_cons, hPx]
      · have hne : r ≠ p := by
          intro h
          rw [h, hf] at hfr
          cases hfr
          exact hPx hP
        rcases List.mem_cons.1 hp with h | h
        · exact absurd h.symm hne
        · simp only [List.find?_cons, hPx]
          exact ih h (fun r' hr' => hu r' (List.mem_cons_of_mem _ hr'))

theorem find_filterMap_none {α : Type} (l : List Nat) (f : Nat → Option α) (P : α → Bool)
    (hn : ∀ r ∈ l, ∀ x, f r = some x → P x = false) :
    (l.filterMap f).find? P = none := by
  rw [List.find?_eq_none]
  intro x hx
  obtain ⟨r, hr, hfr⟩ := List.mem_filterMap.1 hx
  simp [hn r hr x hfr]

/-- Looking a query up in the hash table and reading the block found is the
same as searching the entries, in list order, for the identity of the query. -/
theorem hash_find_live {E : Env} {s : filemgr} (hL : Linked E s) {q : wal_item}
    (hq : q.keylen < 2 ^ 32) :
    (hash_find E s.heap s.wal.hash q).bind (deref s.heap) =
      (live s).find? (fun it => decide (ident it = ident q)) := by
  cases h : hash_find E s.heap s.wal.hash q with
  | none =>
    symm
    apply find_filterMap_none
    intro r hr x hx
    simpa using hash_find_none hL hq h r hr x hx
  | some p =>
    obtain ⟨hp, it, hit, hid⟩ := hash_find_some hL hq h
    rw [Option.bind, hit]
    symm
    apply find_filterMap_some _ _ _ p it hp hit (by simpa using hid)
    intro r hr x hx hPx
    exact hL.uniq r p x it hr hp hx hit ((by simpa using hPx : ident x = ident q).trans hid.symm)

theorem deref_set (heap : List (Option wal_item)) (p r : Nat) (v : Option wal_item)
    (hlt : p < heap.length) :
    deref (heap.set p v) r = if r = p then v else deref heap r := by
  by_cases h : r = p
  · subst h
    simp [deref_set_eq heap r v hlt]
  · simp [h, deref_set_ne heap p r v h]

/-- Overwriting the data of a linked block without touching its key keeps the
store linked. -/
theorem Linked.update {E : Env} {s : filemgr} (hL : Linked E s) {p : Nat} {it it' : wal_item}
    (hp : p ∈ s.wal.list) (hit : deref s.heap p = some it) (hid : ident it' = ident it) :
    Linked E { s with heap := s.heap.set p (some it') } := by
  have hlt := deref_lt hit
  have hback : ∀ r x, deref (s.heap.set p (some it')) r = some x →
      ∃ y, deref s.heap r = some y ∧ ident y = ident x := by
    intro r x hx
    rw [deref_set _ _ _ _ hlt] at hx
    by_cases h : r = p
    · subst h
      simp only [if_true, Option.some.injEq] at hx
      subst hx
      exact ⟨it, hit, hid.symm⟩
    · simp only [h, if_false] at hx
      exact ⟨x, hx, rfl⟩
  refine ⟨hL.nb_pos, hL.nb_len, hL.perm, hL.nodup, ?_, ?_, ?_⟩
  · intro r hr
    change ∃ x, deref (s.heap.set p (some it')) r = some x ∧ x.keylen < 2 ^ 32
    rw [deref_set _ _ _ _ hlt]
    by_cases h : r = p
    · obtain ⟨y, hy, hylt⟩ := hL.alive p hp
      rw [hit] at hy
      cases hy
      have hk : it'.keylen = it.keylen := congrArg Prod.fst hid
      exact ⟨it', by simp [h], by rw [hk]; exact hylt⟩
    · simpa [h] using hL.alive r hr
  · intro b r x hr hx
    obtain ⟨y, hy, hyx⟩ := hback r x hx
    have := hL.placed b r y hr hy
    rw [← this]
    exact wal_hash_ident E _ x y hyx.symm
  · intro r1 r2 x1 x2 h1 h2 hx1 hx2 hxx
    obtain ⟨y1, hy1, hyx1⟩ := hback r1 x1 hx1
    obtain ⟨y2, hy2, hyx2⟩ := hback r2 x2 hx2
    exact hL.uniq r1 r2 y1 y2 h1 h2 hy1 hy2 (hyx1.trans (hxx.trans hyx2.symm))

/-- The entries after overwriting the data of the block that carries a key. -/
theorem live_update {E : Env} {s : filemgr} (hL : Linked E s) {p : Nat} {it : wal_item}
    (g : wal_item → wal_item) (hp : p ∈ s.wal.list) (hit : deref s.heap p = some it) :
    live { s with heap := s.heap.set p (some (g it)) } =
      (live s).map (fun x => if ident x = ident it then g x else x) := by
  have hlt := deref_lt hit
  unfold live
  rw [List.map_filterMap]
  apply List.filterMap_congr
  intro r hr
  change deref (s.heap.set p (some (g it))) r = _
  rw [deref_set _ _ _ _ hlt]
  by_cases h : r = p
  · subst h
    simp [hit]
  · obtain ⟨x, hx, _⟩ := hL.alive r hr
    have hne : ident x ≠ ident it := fun hxx => h (hL.uniq r p x it hr hp hx hit hxx)
    simp [h, hx, hne]

theorem Linked.fresh {E : Env} {s : filemgr} (hL : Linked E s) :
    mempool_alloc s.heap ∉ s.wal.list := by
  intro h
  obtain ⟨it, hit, _⟩ := hL.alive _ h
  unfold mempool_alloc at hit
  rw [deref_length] at hit
  cases hit

theorem Linked.mem_lt {E : Env} {s : filemgr} (hL : Linked E s) {r : Nat}
    (hr : r ∈ s.wal.list) : r < s.heap.length := by
  obtain ⟨it, hit, _⟩ := hL.alive r hr
  exact deref_lt hit

/-- Linking a new block whose key has no entry yet keeps the store linked. -/
theorem Linked.add {E : Env} {s : filemgr} (hL : Linked E s) (new : wal_item)
    (hlt : new.keylen < 2 ^ 32)
    (hfresh : ∀ r ∈ s.wal.list, ∀ x, deref s.heap r = some x → ident x ≠ ident new) :
    Linked E (link_new E s new) := by
  have hb : _wal_hash E s.wal.hash new < s.wal.hash.buckets.length := by
    rw [hL.nb_len]
    exact wal_hash_lt E _ new hL.nb_pos
  have hold : ∀ r ∈ s.wal.list, deref (s.heap ++ [some new]) r = deref s.heap r :=
    fun r hr => deref_append_lt _ _ _ (hL.mem_lt hr)
  have hnew : deref (s.heap ++ [some new]) (mempool_alloc s.heap) = some new :=
    deref_append_length _ _
  have hmem : ∀ c r, r ∈ (link_new E s new).wal.hash.chain c →
      (r = mempool_alloc s.heap ∧ c = _wal_hash E s.wal.hash new) ∨ r ∈ s.wal.hash.chain c := by
    intro c r hr
    by_cases hc : _wal_hash E s.wal.hash new = c
    · subst hc
      simp only [link_new, hash_insert] at hr
      rw [chain_set_same _ _ _ hb] at hr
      rcases List.mem_cons.1 hr with h | h
      · exact Or.inl ⟨h, rfl⟩
      · exact Or.inr h
    · simp only [link_new, hash_insert] at hr
      rw [chain_set_ne _ _ _ _ hc] at hr
      exact Or.inr hr
  refine ⟨hL.nb_pos, ?_, ?_, ?_, ?_, ?_, ?_⟩
  · simp only [link_new, hash_insert, List.length_set]
    exact hL.nb_len
  · simp only [link_new, hash_insert, list_push_front]
    exact (join_set_cons_perm _ _ _ hb).trans (hL.perm.cons _)
  · simp only [link_new, list_push_front]
    exact List.nodup_cons.2 ⟨hL.fresh, hL.nodup⟩
  · intro r hr
    simp only [link_new, list_push_front] at hr ⊢
    rcases List.mem_cons.1 hr with h | h
    · subst h
      exact ⟨new, hnew, hlt⟩
    · rw [hold r h]
      exact hL.alive r h
  · intro c r x hr hx
    have hnb : (link_new E s new).wal.hash.nbuckets = s.wal.hash.nbuckets := rfl
    rw [wal_hash_nbuckets E _ _ x hnb]
    simp only [link_new] at hx
    rcases hmem c r hr with ⟨h1, h2⟩ | h
    · subst h1
      rw [hnew] at hx
      cases hx
      exact h2.symm
    · have hrl : r ∈ s.wal.list := hL.perm.mem_iff.1 (mem_join_of_mem_chain h)
      rw [hold r hrl] at hx
      exact hL.placed c r x h hx
  · intro r1 r2 x1 x2 h1 h2 hx1 hx2 hxx
    simp only [link_new, list_push_front] at h1 h2 hx1 hx2
    rcases List.mem_cons.1 h1 with e1 | m1 <;> rcases List.mem_cons.1 h2 with e2 | m2
    · rw [e1, e2]
    · subst e1
      rw [hnew] at hx1
      cases hx1
      rw [hold r2 m2] at hx2
      exact absurd hxx.symm (hfresh r2 m2 x2 hx2)
    · subst e2
      rw [hnew] at hx2
      cases hx2
      rw [hold r1 m1] at hx1
      exact absurd hxx (hfresh r1 m1 x1 hx1)
    · rw [hold r1 m1] at hx1
      rw [hold r2 m2] at hx2
      exact hL.uniq r1 r2 x1 x2 m1 m2 hx1 hx2 hxx

/-- The entries after linking a new block: the new entry, then the old ones. -/
theorem live_add {E : Env} {s : filemgr} (hL : Linked E s) (new : wal_item) :
    live (link_new E s new) = new :: live s := by
  unfold live
  simp only [link_new, list_push_front, mempool_alloc]
  rw [List.filterMap_cons_some (deref_append_length _ _)]
  congr 1
  apply List.filterMap_congr
  intro r hr
  exact deref_append_lt _ _ _ (hL.mem_lt hr)

/-! ## The functions of `wal.c` act on the list of entries -/

theorem ident_new_insert_item (E : Env) (key : List Byte) (keylen : Nat) (offset : Nat) :
    ident (new_insert_item E key keylen offset) = key_ident E key keylen := by
  unfold new_insert_item key_ident mk_query ident
  by_cases h : E.WAL_KEY_COPY = true
  · simp [h, List.take_take]
  · simp [h]

theorem ident_new_remove_item (E : Env) (key : List Byte) (keylen : Nat) :
    ident (new_remove_item E key keylen) = key_ident E key keylen := by
  unfold new_remove_item key_ident mk_query ident
  simp [List.take_take]

theorem wal_insert_none {E : Env} {s : filemgr} {key : List Byte} {keylen offset : Nat}
    (h : hash_find E s.heap s.wal.hash (mk_query E key keylen) = none) :
    wal_insert E s key keylen offset = link_new E s (new_insert_item E key keylen offset) := by
  simp only [wal_insert, h]
  rfl

theorem wal_remove_none {E : Env} {s : filemgr} {key : List Byte} {keylen : Nat}
    (h : hash_find E s.heap s.wal.hash (mk_query E key keylen) = none) :
    wal_remove E s key keylen = link_new E s (new_remove_item E key keylen) := by
  simp only [wal_remove, h]
  rfl

theorem entry_of_live {E : Env} {s : filemgr} (hL : Linked E s) (hW : E.keylen_bits ≤ 32)
    (key : List Byte) (keylen : Nat) :
    entry_of (live s) (key_ident E key keylen) =
      (hash_find E s.heap s.wal.hash (mk_query E key keylen)).bind (deref s.heap) :=
  (hash_find_live hL (mk_query_keylen_lt E hW key keylen)).symm

theorem live_length {E : Env} {s : filemgr} (hL : Linked E s) :
    (live s).length = s.wal.list.length := by
  unfold live
  have : ∀ l : List Nat, (∀ r ∈ l, ∃ x, deref s.heap r = some x) →
      (l.filterMap (deref s.heap)).length = l.length := by
    intro l
    induction l with
    | nil => simp
    | cons r l ih =>
      intro h
      obtain ⟨x, hx⟩ := h r (List.mem_cons_self _ _)
      rw [List.filterMap_cons_some hx]
      simp [ih (fun r' hr' => h r' (List.mem_cons_of_mem _ hr'))]
  exact this _ (fun r hr => (hL.alive r hr).imp fun _ h => h.1)

/-- `wal_insert` keeps the invariant and acts on the entries as `abs_insert`. -/
theorem wal_insert_refines {E : Env} {s : filemgr} (hW : E.keylen_bits ≤ 32) (hI : Inv E s)
    (key : List Byte) (keylen offset : Nat) :
    Inv E (wal_insert E s key keylen offset) ∧
      live (wal_insert E s key keylen offset) = abs_insert E (live s) key keylen offset := by
  obtain ⟨hL, hsz⟩ := hI
  have hq := mk_query_keylen_lt E hW key keylen
  have hent := entry_of_live hL hW key keylen
  cases h : hash_find E s.heap s.wal.hash (mk_query E key keylen) with
  | none =>
    rw [wal_insert_none h]
    rw [h] at hent
    have hadd := hL.add (new_insert_item E key keylen offset)
      (by simpa [new_insert_item, mk_query] using hq)
      (by rw [ident_new_insert_item]; exact hash_find_none hL hq h)
    refine ⟨⟨hadd, ?_⟩, ?_⟩
    · simp [link_new, list_push_front, hsz]
    · rw [live_add hL, abs_insert, hent]
      rfl
  | some p =>
    obtain ⟨hp, it, hit, hid⟩ := hash_find_some hL hq h
    rw [h, Option.bind, hit] at hent
    have hfun : wal_insert E s key keylen offset =
        { s with heap := s.heap.set p (some (upd_insert offset it)) } := by
      simp only [wal_insert, h, hit, upd_insert]
    rw [hfun]
    refine ⟨⟨hL.update hp hit rfl, hsz⟩, ?_⟩
    rw [live_update hL _ hp hit, abs_insert, hent]
    simp only [key_ident, hid]

/-- `wal_remove` keeps the invariant and acts on the entries as `abs_remove`. -/
theorem wal_remove_refines {E : Env} {s : filemgr} (hW : E.keylen_bits ≤ 32) (hI : Inv E s)
    (key : List Byte) (keylen : Nat) :
    Inv E (wal_remove E s key keylen) ∧
      live (wal_remove E s key keylen) = abs_remove E (live s) key keylen := by
  obtain ⟨hL, hsz⟩ := hI
  have hq := mk_query_keylen_lt E hW key keylen
  have hent := entry_of_live hL hW key keylen
  cases h : hash_find E s.heap s.wal.hash (mk_query E key keylen) with
  | none =>
    rw [wal_remove_none h]
    rw [h] at hent
    have hadd := hL.add (new_remove_item E key keylen)
      (by simpa [new_remove_item, mk_query] using hq)
      (by rw [ident_new_remove_item]; exact hash_find_none hL hq h)
    refine ⟨⟨hadd, ?_⟩, ?_⟩
    · simp [link_new, list_push_front, hsz]
    · rw [live_add hL, abs_remove, hent]
      rfl
  | some p =>
    obtain ⟨hp, it, hit, hid⟩ := hash_find_some hL hq h
    rw [h, Option.bind, hit] at hent
    have hfun : wal_remove E s key keylen =
        { s with heap := s.heap.set p (some (upd_remove it)) } := by
      simp only [wal_remove, h, hit, upd_remove]
      by_cases ha : it.action = WAL_ACT_INSERT
      · simp [ha]
      · simp only [ha, if_false]
        have hself : s.heap.set p (some it) = s.heap := by
          apply List.ext_getElem?
          intro i
          by_cases hi : p = i
          · subst hi
            rw [List.getElem?_set_self (deref_lt hit)]
            unfold deref at hit
            split at hit <;> simp_all
          · rw [List.getElem?_set_ne hi]
        rw [hself]
    rw [hfun]
    refine ⟨⟨hL.update hp hit ?_, hsz⟩, ?_⟩
    · by_cases ha : it.action = WAL_ACT_INSERT <;> simp [ha, ident, upd_remove]
    · rw [live_update hL _ hp hit, abs_remove, hent]
      simp only [key_ident, hid]

/-- `wal_find` reads its result off the entries as `abs_find`. -/
theorem wal_find_refines {E : Env} {s : filemgr} (hW : E.keylen_bits ≤ 32) (hI : Inv E s)
    (key : List Byte) (keylen : Nat) :
    wal_find E s key keylen = abs_find E (live s) key keylen := by
  obtain ⟨hL, _⟩ := hI
  have hq := mk_query_keylen_lt E hW key keylen
  have hent := entry_of_live hL hW key keylen
  unfold abs_find
  rw [hent]
  cases h : hash_find E s.heap s.wal.hash (mk_query E key keylen) with
  | none => simp [wal_find, h]
  | some p =>
    obtain ⟨hp, it, hit, hid⟩ := hash_find_some hL hq h
    simp [wal_find, h, hit]

/-- `wal_get_size` is the number of entries. -/
theorem wal_get_size_live {E : Env} {s : filemgr} (hI : Inv E s) :
    wal_get_size s = (live s).length := by
  rw [live_length hI.1]
  exact hI.2

/-! ## Flushing -/

theorem wal_flush_loop_cons {E : Env} {s : filemgr} {e : Nat} {item : wal_item}
    (next : List Nat) (calls : List flush_call) (hit : deref s.heap e = some item) :
    wal_flush_loop E (e :: next) s calls =
      wal_flush_loop E next (unlink E s e item) (calls ++ [call_of item]) := by
  simp only [wal_flush_loop, hit]
  rfl

/-- One round of the loop of `wal_flush` keeps the store linked. -/
theorem Linked.after_unlink {E : Env} {s : filemgr} (hL : Linked E s) {e : Nat} {item : wal_item}
    (he : e ∈ s.wal.list) (hit : deref s.heap e = some item) :
    Linked E (unlink E s e item) := by
  have hlt := deref_lt hit
  have hb : _wal_hash E s.wal.hash item < s.wal.hash.buckets.length := by
    rw [hL.nb_len]
    exact wal_hash_lt E _ item hL.nb_pos
  have hmem : ∀ r, r ∈ s.wal.list.erase e ↔ r ≠ e ∧ r ∈ s.wal.list :=
    fun r => hL.nodup.mem_erase_iff
  have hold : ∀ r, r ≠ e → deref (mempool_free s.heap e) r = deref s.heap r :=
    fun r hr => deref_set_ne _ _ _ _ hr
  have hgone : deref (mempool_free s.heap e) e = none := deref_set_eq _ _ _ hlt
  have hperm : (unlink E s e item).wal.hash.buckets.flatten.Perm (s.wal.list.erase e) := by
    have h1 := join_set_erase_perm s.wal.hash.buckets _ e hb (hL.mem_chain he hit)
    have h2 := (h1.trans hL.perm).trans (List.perm_cons_erase he)
    exact h2.cons_inv
  have hsub : ∀ c r, r ∈ (unlink E s e item).wal.hash.chain c → r ∈ s.wal.hash.chain c := by
    intro c r hr
    by_cases hc : _wal_hash E s.wal.hash item = c
    · subst hc
      simp only [Wal.unlink, hash_remove] at hr
      rw [chain_set_same _ _ _ hb] at hr
      exact List.mem_of_mem_erase hr
    · simp only [Wal.unlink, hash_remove] at hr
      rw [chain_set_ne _ _ _ _ hc] at hr
      exact hr
  refine ⟨hL.nb_pos, ?_, hperm, hL.nodup.erase e, ?_, ?_, ?_⟩
  · simp only [Wal.unlink, hash_remove, List.length_set]
    exact hL.nb_len
  · intro r hr
    obtain ⟨hne, hrl⟩ := (hmem r).1 hr
    simp only [Wal.unlink]
    rw [hold r hne]
    exact hL.alive r hrl
  · intro c r x hr hx
    have hne : r ≠ e := by
      intro h
      subst h
      simp only [Wal.unlink] at hx
      rw [hgone] at hx
      cases hx
    simp only [Wal.unlink] at hx
    rw [hold r hne] at hx
    have hnb : (unlink E s e item).wal.hash.nbuckets = s.wal.hash.nbuckets := rfl
    rw [wal_hash_nbuckets E _ _ x hnb]
    exact hL.placed c r x (hsub c r hr) hx
  · intro r1 r2 x1 x2 h1 h2 hx1 hx2 hxx
    obtain ⟨n1, m1⟩ := (hmem r1).1 h1
    obtain ⟨n2, m2⟩ := (hmem r2).1 h2
    simp only [Wal.unlink] at hx1 hx2
    rw [hold r1 n1] at hx1
    rw [hold r2 n2] at hx2
    exact hL.uniq r1 r2 x1 x2 m1 m2 hx1 hx2 hxx

/-- The entries after one round of the loop of `wal_flush` on the head of the
order list: the head entry is gone. -/
theorem live_unlink_head {E : Env} {s : filemgr} (hL : Linked E s) {e : Nat} {item : wal_item}
    {next : List Nat} (hl : s.wal.list = e :: next) (hit : deref s.heap e = some item) :
    (unlink E s e item).wal.list = next ∧ live s = item :: live (unlink E s e item) := by
  have hnd := hL.nodup
  rw [hl] at hnd
  have hne : ∀ r ∈ next, r ≠ e := by
    intro r hr h
    subst h
    exact (List.nodup_cons.1 hnd).1 hr
  have hlist : (unlink E s e item).wal.list = next := by
    simp [Wal.unlink, list_remove, hl]
  refine ⟨hlist, ?_⟩
  unfold live
  rw [hlist, hl, List.filterMap_cons_some hit]
  congr 1
  apply List.filterMap_congr
  intro r hr
  exact (deref_set_ne _ _ _ _ (hne r hr)).symm

/-- The loop of `wal_flush`, started with the cursor on the head of the order
list, calls the callback once for every entry, in list order, and leaves a
linked store with an empty order list, the bucket count and `size` as they
were. -/
theorem wal_flush_loop_spec (E : Env) (l : List Nat) :
    ∀ (s : filemgr) (calls : List flush_call), Linked E s → s.wal.list = l →
      (wal_flush_loop E l s calls).1 = calls ++ (live s).map call_of ∧
      Linked E (wal_flush_loop E l s calls).2 ∧
      (wal_flush_loop E l s calls).2.wal.list = [] ∧
      (wal_flush_loop E l s calls).2.wal.hash.nbuckets = s.wal.hash.nbuckets ∧
      (wal_flush_loop E l s calls).2.wal.size = s.wal.size := by
  induction l with
  | nil =>
    intro s calls hL hl
    simp [wal_flush_loop, live, hl, hL]
  | cons e next ih =>
    intro s calls hL hl
    have he : e ∈ s.wal.list := by simp [hl]
    obtain ⟨item, hit, _⟩ := hL.alive e he
    obtain ⟨hlist, hlive⟩ := live_unlink_head hL hl hit
    rw [wal_flush_loop_cons next calls hit]
    obtain ⟨h1, h2, h3, h4, h5⟩ := ih (unlink E s e item) (calls ++ [call_of item])
      (hL.after_unlink he hit) hlist
    refine ⟨?_, h2, h3, ?_, ?_⟩
    · rw [h1, hlive]
      simp
    · rw [h4]
      rfl
    · rw [h5]
      rfl

theorem Linked.buckets_of_nil {E : Env} {s : filemgr} (hL : Linked E s) (hl : s.wal.list = []) :
    s.wal.hash = hash_init s.wal.hash.nbuckets := by
  have hperm := hL.perm
  rw [hl] at hperm
  have hnil : s.wal.hash.buckets.flatten = [] := List.perm_nil.1 hperm
  have hall : ∀ c ∈ s.wal.hash.buckets, c = [] := List.flatten_eq_nil_iff.1 hnil
  have hb : s.wal.hash.buckets = List.replicate s.wal.hash.nbuckets [] :=
    List.eq_replicate_iff.2 ⟨hL.nb_len, hall⟩
  cases hh : s.wal.hash with
  | mk nb bs =>
    rw [hh] at hb
    simp only [hash_init]
    simp only at hb
    rw [hb]

/-- `wal_flush` calls the callback once for every entry, in list order, and
leaves the `struct wal` as `wal_init` sets it up for the same bucket count. -/
theorem wal_flush_refines {E : Env} {s : filemgr} (hI : Inv E s) :
    (wal_flush E s).1 = (live s).map call_of ∧
      (wal_flush E s).2.wal = (wal_init s s.wal.hash.nbuckets).wal ∧
      Inv E (wal_flush E s).2 ∧ live (wal_flush E s).2 = [] := by
  obtain ⟨h1, h2, h3, h4, _⟩ := wal_flush_loop_spec E s.wal.list s [] hI.1 rfl
  have hh := h2.buckets_of_nil h3
  rw [h4] at hh
  refine ⟨by simpa [wal_flush] using h1, ?_, ⟨?_, ?_⟩, ?_⟩
  · simp [wal_flush, wal_init, list_init, h3, hh]
  · exact ⟨h2.nb_pos, h2.nb_len, h2.perm, h2.nodup, h2.alive, h2.placed, h2.uniq⟩
  · simp [wal_flush, h3]
  · simp [live, wal_flush, h3]

/-! ## Reachable stores -/

theorem chain_hash_init (nb b : Nat) : (hash_init nb).chain b = [] := by
  unfold hash.chain hash_init
  rw [List.getD_eq_getElem?_getD]
  by_cases h : b < nb
  · simp [List.getElem?_replicate, h]
  · simp [List.getElem?_replicate, h]

theorem wal_init_inv (E : Env) (file : filemgr) (nbucket : Nat) (h : 0 < nbucket) :
    Inv E (wal_init file nbucket) := by
  refine ⟨⟨h, ?_, ?_, ?_, ?_, ?_, ?_⟩, rfl⟩
  · simp [wal_init, hash_init]
  · simp [wal_init, hash_init, list_init]
  · simp [wal_init, list_init]
  · intro p hp
    simp [wal_init, list_init] at hp
  · intro b p it hp
    simp only [wal_init] at hp
    rw [chain_hash_init] at hp
    cases hp
  · intro p q ip iq hp
    simp [wal_init, list_init] at hp

theorem Reachable.inv {E : Env} (hW : E.keylen_bits ≤ 32) {s : filemgr} (h : Reachable E s) :
    Inv E s := by
  induction h with
  | init file nbucket h => exact wal_init_inv E file nbucket h
  | insert key offset _ ih => exact (wal_insert_refines hW ih key key.length offset).1
  | remove key _ ih => exact (wal_remove_refines hW ih key key.length).1
  | find _ _ ih => exact ih
  | get_size _ ih => exact ih
  | flush _ ih => exact (wal_flush_refines ih).2.2.1

theorem Drained.reachable {E : Env} {s : filemgr} (h : Drained E s) : Reachable E s := by
  cases h with
  | init file nbucket h => exact Reachable.init file nbucket h
  | flush h => exact Reachable.flush h

theorem Drained.live {E : Env} (hW : E.keylen_bits ≤ 32) {s : filemgr} (h : Drained E s) :
    live s = [] := by
  cases h with
  | init file nbucket h => rfl
  | flush h => exact (wal_flush_refines (h.inv hW)).2.2.2

theorem run_ops_append (E : Env) (s : filemgr) (ops : List Op) (op : Op) :
    run_ops E s (ops ++ [op]) = apply_op E (run_ops E s ops) op := by
  simp [run_ops, List.foldl_append]

theorem run_ops_reachable {E : Env} {s : filemgr} (h : Reachable E s) (ops : List Op) :
    Reachable E (run_ops E s ops) := by
  induction ops using List.reverseRecOn with
  | nil => exact h
  | append_singleton ops op ih =>
    rw [run_ops_append]
    cases op with
    | insert k o => exact Reachable.insert k o ih
    | remove k => exact Reachable.remove k ih

/-! ## Facts about the list of entries -/

theorem ident_upd_insert (o : Nat) (x : wal_item) : ident (upd_insert o x) = ident x := rfl

theorem ident_upd_remove (x : wal_item) : ident (upd_remove x) = ident x := by
  unfold upd_remove
  split <;> rfl

theorem entry_of_some {L : List wal_item} {id : Nat × List Byte} {x : wal_item}
    (h : entry_of L id = some x) : ident x = id ∧ x ∈ L := by
  unfold entry_of at h
  exact ⟨by simpa using List.find?_some h, List.mem_of_find?_eq_some h⟩

theorem entry_of_eq_none {L : List wal_item} {id : Nat × List Byte} :
    entry_of L id = none ↔ id ∉ L.map ident := by
  unfold entry_of
  rw [List.find?_eq_none]
  simp only [decide_eq_true_eq, List.mem_map, not_exists, not_and]

theorem entry_of_cons (x : wal_item) (L : List wal_item) (id : Nat × List Byte) :
    entry_of (x :: L) id = if ident x = id then some x else entry_of L id := by
  unfold entry_of
  by_cases h : ident x = id <;> simp [List.find?_cons, h]

theorem entry_of_map (L : List wal_item) (f : wal_item → wal_item)
    (hf : ∀ x, ident (f x) = ident x) (id : Nat × List Byte) :
    entry_of (L.map f) id = (entry_of L id).map f := by
  induction L with
  | nil => rfl
  | cons x L ih =>
    rw [List.map_cons, entry_of_cons, entry_of_cons, hf]
    by_cases h : ident x = id
    · simp [h]
    · simp [h, ih]

theorem entry_of_map_if (L : List wal_item) (g : wal_item → wal_item)
    (hg : ∀ x, ident (g x) = ident x) (id id' : Nat × List Byte) :
    entry_of (L.map fun x => if ident x = id then g x else x) id' =
      if id' = id then (entry_of L id').map g else entry_of L id' := by
  rw [entry_of_map]
  · cases h : entry_of L id' with
    | none => simp
    | some x =>
      have hx := (entry_of_some h).1
      by_cases hid : id' = id
      · simp [hid, hx ▸ hid]
      · have : ¬ ident x = id := fun h' => hid (hx ▸ h')
        simp [hid, this]
  · intro x
    split
    · exact hg x
    · rfl

/-- The entry of the key after `wal_insert`: an `INSERT` entry with the
offset just given. Entries of other keys are the same as before. -/
theorem entry_of_abs_insert (E : Env) (L : List wal_item) (key : List Byte) (keylen o : Nat)
    (id' : Nat × List Byte) :
    (id' ≠ key_ident E key keylen → entry_of (abs_insert E L key keylen o) id' = entry_of L id') ∧
    ∃ x, entry_of (abs_insert E L key keylen o) (key_ident E key keylen) = some x ∧
      x.action = WAL_ACT_INSERT ∧ x.offset = some o := by
  unfold abs_insert
  cases h : entry_of L (key_ident E key keylen) with
  | none =>
    simp only
    constructor
    · intro hne
      rw [entry_of_cons, ident_new_insert_item, if_neg (Ne.symm hne)]
    · refine ⟨new_insert_item E key keylen o, ?_, rfl, rfl⟩
      rw [entry_of_cons, ident_new_insert_item, if_pos rfl]
  | some y =>
    simp only
    constructor
    · intro hne
      rw [entry_of_map_if _ _ (ident_upd_insert o), if_neg hne]
    · refine ⟨upd_insert o y, ?_, rfl, rfl⟩
      rw [entry_of_map_if _ _ (ident_upd_insert o), if_pos rfl, h]
      rfl

/-- The entry of the key after `wal_remove`: a `REMOVE` entry. Entries of
other keys are the same as before. -/
theorem entry_of_abs_remove (E : Env) (L : List wal_item) (key : List Byte) (keylen : Nat)
    (id' : Nat × List Byte) :
    (id' ≠ key_ident E key keylen → entry_of (abs_remove E L key keylen) id' = entry_of L id') ∧
    ∃ x, entry_of (abs_remove E L key keylen) (key_ident E key keylen) = some x ∧
      x.action = WAL_ACT_REMOVE := by
  unfold abs_remove
  cases h : entry_of L (key_ident E key keylen) with
  | none =>
    simp only
    constructor
    · intro hne
      rw [entry_of_cons, ident_new_remove_item, if_neg (Ne.symm hne)]
    · refine ⟨new_remove_item E key keylen, ?_, rfl⟩
      rw [entry_of_cons, ident_new_remove_item, if_pos rfl]
  | some y =>
    simp only
    constructor
    · intro hne
      rw [entry_of_map_if _ _ ident_upd_remove, if_neg hne]
    · refine ⟨upd_remove y, ?_, ?_⟩
      · rw [entry_of_map_if _ _ ident_upd_remove, if_pos rfl, h]
        rfl
      · unfold upd_remove
        cases ha : y.action <;> simp [ha]

theorem map_ident_map_if (L : List wal_item) (g : wal_item → wal_item)
    (hg : ∀ x, ident (g x) = ident x) (id : Nat × List Byte) :
    (L.map fun x => if ident x = id then g x else x).map ident = L.map ident := by
  rw [List.map_map]
  apply List.map_congr_left
  intro x _
  simp only [Function.comp]
  split
  · exact hg x
  · rfl

/-- The keys present after `wal_insert`: the key is put in front if it was
not there, and nothing changes otherwise. -/
theorem idents_abs_insert (E : Env) (L : List wal_item) (key : List Byte) (keylen o : Nat) :
    (abs_insert E L key keylen o).map ident =
      if key_ident E key keylen ∈ L.map ident then L.map ident
      else key_ident E key keylen :: L.map ident := by
  unfold abs_insert
  cases h : entry_of L (key_ident E key keylen) with
  | none =>
    rw [if_neg (entry_of_eq_none.1 h)]
    simp [ident_new_insert_item]
  | some y =>
    have hm : key_ident E key keylen ∈ L.map ident := by
      by_contra hc
      rw [entry_of_eq_none.2 hc] at h
      cases h
    rw [if_pos hm]
    exact map_ident_map_if L _ (ident_upd_insert o) _

/-- The keys present after `wal_remove`: as for `wal_insert`. -/
theorem idents_abs_remove (E : Env) (L : List wal_item) (key : List Byte) (keylen : Nat) :
    (abs_remove E L key keylen).map ident =
      if key_ident E key keylen ∈ L.map ident then L.map ident
      else key_ident E key keylen :: L.map ident := by
  unfold abs_remove
  cases h : entry_of L (key_ident E key keylen) with
  | none =>
    rw [if_neg (entry_of_eq_none.1 h)]
    simp [ident_new_remove_item]
  | some y =>
    have hm : key_ident E key keylen ∈ L.map ident := by
      by_contra hc
      rw [entry_of_eq_none.2 hc] at h
      cases h
    rw [if_pos hm]
    exact map_ident_map_if L _ ident_upd_remove _

/-- On a linked store no two entries carry the same key. -/
theorem Linked.idents_nodup {E : Env} {s : filemgr} (hL : Linked E s) :
    ((live s).map ident).Nodup := by
  have key : ∀ l : List Nat, l.Nodup → (∀ r ∈ l, r ∈ s.wal.list) →
      ((l.filterMap (deref s.heap)).map ident).Nodup := by
    intro l
    induction l with
    | nil => intro _ _; simp
    | cons r l ih =>
      intro hnd hsub
      obtain ⟨hr, hnd'⟩ := List.nodup_cons.1 hnd
      obtain ⟨x, hx, _⟩ := hL.alive r (hsub r (List.mem_cons_self _ _))
      rw [List.filterMap_cons_some hx, List.map_cons, List.nodup_cons]
      refine ⟨?_, ih hnd' (fun r' hr' => hsub r' (List.mem_cons_of_mem _ hr'))⟩
      intro hmem
      obtain ⟨y, hy, hyx⟩ := List.mem_map.1 hmem
      obtain ⟨r', hr', hy'⟩ := List.mem_filterMap.1 hy
      have := hL.uniq r' r y x (hsub r' (List.mem_cons_of_mem _ hr'))
        (hsub r (List.mem_cons_self _ _)) hy' hx hyx
      exact hr (this ▸ hr')
  exact key _ hL.nodup (fun _ h => h)

theorem entry_of_mem {L : List wal_item} (hnd : (L.map ident).Nodup) {x : wal_item}
    (hx : x ∈ L) : entry_of L (ident x) = some x := by
  induction L with
  | nil => cases hx
  | cons y L ih =>
    rw [List.map_cons, List.nodup_cons] at hnd
    rw [entry_of_cons]
    rcases List.mem_cons.1 hx with h | h
    · subst h
      simp
    · have hne : ident y ≠ ident x := by
        intro heq
        exact hnd.1 (heq ▸ List.mem_map_of_mem ident h)
      rw [if_neg hne]
      exact ih hnd.2 h

/-! ## Sequences of calls -/

/-- A key whose length fits `keylen_t` is looked up under its own length and
bytes. -/
theorem key_ident_fit (E : Env) (k : List Byte) (hk : k.length < 2 ^ E.keylen_bits) :
    key_ident E k k.length = (k.length, k) := by
  unfold key_ident ident mk_query
  simp [Nat.mod_eq_of_lt hk]

theorem last_call_eq_none {ops : List Op} {k : List Byte} :
    last_call ops k = none ↔ k ∉ ops.map Op.key := by
  unfold last_call
  rw [List.find?_eq_none]
  simp only [List.mem_reverse, decide_eq_true_eq, List.mem_map, not_exists, not_and]

/-- Two stores with the same entries answer every sequence of calls alike. -/
theorem run_calls_congr {E : Env} (hW : E.keylen_bits ≤ 32) (cs : List Call) :
    ∀ s1 s2 : filemgr, Inv E s1 → Inv E s2 → live s1 = live s2 →
      run_calls E s1 cs = run_calls E s2 cs := by
  induction cs with
  | nil => intro _ _ _ _ _; rfl
  | cons c cs ih =>
    intro s1 s2 h1 h2 hl
    simp only [run_calls]
    cases c with
    | insert k o =>
      have r1 := wal_insert_refines hW h1 k k.length o
      have r2 := wal_insert_refines hW h2 k k.length o
      simp only [do_call]
      rw [ih _ _ r1.1 r2.1 (by rw [r1.2, r2.2, hl])]
    | remove k =>
      have r1 := wal_remove_refines hW h1 k k.length
      have r2 := wal_remove_refines hW h2 k k.length
      simp only [do_call]
      rw [ih _ _ r1.1 r2.1 (by rw [r1.2, r2.2, hl])]
    | find k =>
      simp only [do_call]
      rw [wal_find_refines hW h1, wal_find_refines hW h2, hl, ih _ _ h1 h2 hl]
    | get_size =>
      simp only [do_call]
      rw [wal_get_size_live h1, wal_get_size_live h2, hl, ih _ _ h1 h2 hl]

/-! ## The claims of the specification -/

/-- C3, dual-view invariant.  In every store reachable from `wal_init` by
`wal_insert`, `wal_remove` and `wal_flush` (`wal_find` and `wal_get_size`
change nothing), the chains of the hash table together hold the same elements
as the order list, every element occurs once in the list and once in the
table, and `size` is the number of elements of either. -/
theorem C3_dual_view (E : Env) (hW : E.keylen_bits ≤ 32) (s : filemgr) (h : Reachable E s) :
    s.wal.hash.buckets.flatten.Perm s.wal.list ∧
    s.wal.list.Nodup ∧ s.wal.hash.buckets.flatten.Nodup ∧
    s.wal.size = s.wal.list.length ∧ s.wal.size = s.wal.hash.buckets.flatten.length := by
  obtain ⟨hL, hsz⟩ := h.inv hW
  refine ⟨hL.perm, hL.nodup, hL.perm.nodup_iff.2 hL.nodup, hsz, ?_⟩
  rw [hsz, hL.perm.length_eq]

/-- C3 at the store the scenario of the specification leaves. -/
theorem C3_dual_view_witness :
    env16.keylen_bits ≤ 32 ∧ Reachable env16 (run_ops env16 (wal_init blank 16) scenario) ∧
    ((run_ops env16 (wal_init blank 16) scenario).wal.hash.buckets.flatten.Perm
        (run_ops env16 (wal_init blank 16) scenario).wal.list ∧
      (run_ops env16 (wal_init blank 16) scenario).wal.list.Nodup ∧
      (run_ops env16 (wal_init blank 16) scenario).wal.hash.buckets.flatten.Nodup ∧
      (run_ops env16 (wal_init blank 16) scenario).wal.size =
        (run_ops env16 (wal_init blank 16) scenario).wal.list.length ∧
      (run_ops env16 (wal_init blank 16) scenario).wal.size =
        (run_ops env16 (wal_init blank 16) scenario).wal.hash.buckets.flatten.length) :=
  ⟨by decide, run_ops_reachable (Reachable.init blank 16 (by decide)) scenario,
    C3_dual_view env16 (by decide) _
      (run_ops_reachable (Reachable.init blank 16 (by decide)) scenario)⟩

/-- C5, flush post-condition.  For every reachable store, after `wal_flush`
`wal_get_size()` is 0, the hash table has all its chains empty, the order
list is empty, `wal_find` fails for every key, and every following sequence
of `wal_insert` / `wal_remove` / `wal_find` / `wal_get_size` calls gives back
what it gives back on a store set up by `wal_init` with the same bucket
count. -/
theorem C5_flush_postcondition (E : Env) (hW : E.keylen_bits ≤ 32) (s : filemgr)
    (h : Reachable E s) (file : filemgr) (calls : List Call) :
    wal_get_size (wal_flush E s).2 = 0 ∧
    (wal_flush E s).2.wal.hash = hash_init s.wal.hash.nbuckets ∧
    (wal_flush E s).2.wal.hash.buckets.flatten = [] ∧
    (wal_flush E s).2.wal.list = [] ∧
    (∀ key keylen, wal_find E (wal_flush E s).2 key keylen = (WAL_RESULT_FAIL, none)) ∧
    run_calls E (wal_flush E s).2 calls = run_calls E (wal_init file s.wal.hash.nbuckets) calls := by
  have hI := h.inv hW
  obtain ⟨_, hwal, hI', hlive⟩ := wal_flush_refines hI
  have hperm := hI'.1.perm
  rw [hwal] at hperm
  refine ⟨?_, ?_, ?_, ?_, ?_, ?_⟩
  · unfold wal_get_size
    rw [hwal]
    rfl
  · rw [hwal]
    rfl
  · rw [hwal]
    exact List.perm_nil.1 hperm
  · rw [hwal]
    rfl
  · intro key keylen
    rw [wal_find_refines hW hI', hlive]
    rfl
  · exact run_calls_congr hW calls _ _ hI' (wal_init_inv E file _ hI.1.nb_pos)
      (by rw [hlive]; rfl)

/-- C5 at the store the scenario of the specification leaves, with a further
round of calls after the flush. -/
theorem C5_flush_postcondition_witness :
    env16.keylen_bits ≤ 32 ∧ Reachable env16 (run_ops env16 (wal_init blank 16) scenario) ∧
    (wal_get_size (wal_flush env16 (run_ops env16 (wal_init blank 16) scenario)).2 = 0 ∧
      (wal_flush env16 (run_ops env16 (wal_init blank 16) scenario)).2.wal.hash =
        hash_init (run_ops env16 (wal_init blank 16) scenario).wal.hash.nbuckets ∧
      (wal_flush env16 (run_ops env16 (wal_init blank 16)
        scenario)).2.wal.hash.buckets.flatten = [] ∧
      (wal_flush env16 (run_ops env16 (wal_init blank 16) scenario)).2.wal.list = [] ∧
      (∀ key keylen, wal_find env16 (wal_flush env16 (run_ops env16 (wal_init blank 16)
        scenario)).2 key keylen = (WAL_RESULT_FAIL, none)) ∧
      run_calls env16 (wal_flush env16 (run_ops env16 (wal_init blank 16) scenario)).2
          [Call.remove bob, Call.insert alice 7, Call.find alice, Call.find bob, Call.get_size] =
        run_calls env16
          (wal_init blank (run_ops env16 (wal_init blank 16) scenario).wal.hash.nbuckets)
          [Call.remove bob, Call.insert alice 7, Call.find alice, Call.find bob,
            Call.get_size]) :=
  ⟨by decide, run_ops_reachable (Reachable.init blank 16 (by decide)) scenario,
    C5_flush_postcondition env16 (by decide) _
      (run_ops_reachable (Reachable.init blank 16 (by decide)) scenario) blank _⟩

theorem scenario_store_reachable : Reachable env16 scenario_store :=
  run_ops_reachable (Reachable.init blank 16 (by decide)) scenario

theorem isSome_resolve_iff {E : Env} {s : filemgr} (hW : E.keylen_bits ≤ 32) (hI : Inv E s)
    (key : List Byte) (keylen : Nat) :
    (resolve E s key keylen).isSome ↔ key_ident E key keylen ∈ (live s).map ident := by
  have hent := entry_of_live hI.1 hW key keylen
  have hq := mk_query_keylen_lt E hW key keylen
  unfold resolve
  cases h : hash_find E s.heap s.wal.hash (mk_query E key keylen) with
  | none =>
    rw [h] at hent
    simp only [Option.isSome_none, Bool.false_eq_true, false_iff]
    exact entry_of_eq_none.1 hent
  | some p =>
    obtain ⟨hp, it, hit, hid⟩ := hash_find_some hI.1 hq h
    rw [h, Option.bind, hit] at hent
    simp only [Option.isSome_some, true_iff]
    exact List.mem_map.2 ⟨it, (entry_of_some hent).2, hid⟩

/-- After `wal_insert` the key has an entry. -/
theorem resolve_insert_isSome {E : Env} {s : filemgr} (hW : E.keylen_bits ≤ 32) (hI : Inv E s)
    (key : List Byte) (keylen o : Nat) :
    (resolve E (wal_insert E s key keylen o) key keylen).isSome := by
  obtain ⟨hI', hlive⟩ := wal_insert_refines hW hI key keylen o
  rw [isSome_resolve_iff hW hI', hlive, idents_abs_insert]
  split
  · assumption
  · exact List.mem_cons_self _ _

/-- `wal_find` right after `wal_insert` of the same key gives the offset. -/
theorem find_insert_same {E : Env} {s : filemgr} (hW : E.keylen_bits ≤ 32) (hI : Inv E s)
    (key : List Byte) (keylen o : Nat) :
    wal_find E (wal_insert E s key keylen o) key keylen = (WAL_RESULT_SUCCESS, some o) := by
  obtain ⟨hI', hlive⟩ := wal_insert_refines hW hI key keylen o
  rw [wal_find_refines hW hI', hlive]
  obtain ⟨x, hx, ha, ho⟩ := (entry_of_abs_insert E (live s) key keylen o
    (key_ident E key keylen)).2
  unfold abs_find
  rw [hx]
  simp [ha, ho]

/-- `wal_find` right after `wal_remove` of the same key fails. -/
theorem find_remove_same {E : Env} {s : filemgr} (hW : E.keylen_bits ≤ 32) (hI : Inv E s)
    (key : List Byte) (keylen : Nat) :
    wal_find E (wal_remove E s key keylen) key keylen = (WAL_RESULT_FAIL, none) := by
  obtain ⟨hI', hlive⟩ := wal_remove_refines hW hI key keylen
  rw [wal_find_refines hW hI', hlive]
  obtain ⟨x, hx, ha⟩ := (entry_of_abs_remove E (live s) key keylen (key_ident E key keylen)).2
  unfold abs_find
  rw [hx]
  simp [ha]

/-- `wal_insert` adds one to `size` when the key has no entry and leaves it
otherwise. -/
theorem size_insert {E : Env} {s : filemgr} (hW : E.keylen_bits ≤ 32) (hI : Inv E s)
    (key : List Byte) (keylen o : Nat) :
    wal_get_size (wal_insert E s key keylen o) =
      if (resolve E s key keylen).isSome then wal_get_size s else wal_get_size s + 1 := by
  obtain ⟨hI', hlive⟩ := wal_insert_refines hW hI key keylen o
  rw [wal_get_size_live hI', wal_get_size_live hI, hlive,
    ← List.length_map (abs_insert E (live s) key keylen o) ident, idents_abs_insert]
  by_cases h : (resolve E s key keylen).isSome
  · rw [if_pos h, if_pos ((isSome_resolve_iff hW hI key keylen).1 h), List.length_map]
  · rw [if_neg h, if_neg (fun hm => h ((isSome_resolve_iff hW hI key keylen).2 hm)),
      List.length_cons, List.length_map]

/-- `wal_remove` adds one to `size` when the key has no entry and leaves it
otherwise. -/
theorem size_remove {E : Env} {s : filemgr} (hW : E.keylen_bits ≤ 32) (hI : Inv E s)
    (key : List Byte) (keylen : Nat) :
    wal_get_size (wal_remove E s key keylen) =
      if (resolve E s key keylen).isSome then wal_get_size s else wal_get_size s + 1 := by
  obtain ⟨hI', hlive⟩ := wal_remove_refines hW hI key keylen
  rw [wal_get_size_live hI', wal_get_size_live hI, hlive,
    ← List.length_map (abs_remove E (live s) key keylen) ident, idents_abs_remove]
  by_cases h : (resolve E s key keylen).isSome
  · rw [if_pos h, if_pos ((isSome_resolve_iff hW hI key keylen).1 h), List.length_map]
  · rw [if_neg h, if_neg (fun hm => h ((isSome_resolve_iff hW hI key keylen).2 hm)),
      List.length_cons, List.length_map]

/-- C8, coalescing.  For every reachable store, key `k` and offsets `o1`,
`o2`: after `wal_insert(k, o1)` and then `wal_insert(k, o2)`, `wal_find(k)`
returns `WAL_RESULT_SUCCESS` with `o2`, and the second insert leaves
`wal_get_size()` as it was. -/
theorem C8_coalescing (E : Env) (hW : E.keylen_bits ≤ 32) (s : filemgr) (h : Reachable E s)
    (k : List Byte) (o1 o2 : Nat) :
    wal_find E (wal_insert E (wal_insert E s k k.length o1) k k.length o2) k k.length =
      (WAL_RESULT_SUCCESS, some o2) ∧
    wal_get_size (wal_insert E (wal_insert E s k k.length o1) k k.length o2) =
      wal_get_size (wal_insert E s k k.length o1) := by
  have hI := h.inv hW
  have hI1 := (wal_insert_refines hW hI k k.length o1).1
  refine ⟨find_insert_same hW hI1 k k.length o2, ?_⟩
  rw [size_insert hW hI1, if_pos (resolve_insert_isSome hW hI k k.length o1)]

/-- C8 on the scenario store: "bob" inserted with 1 and then with 2. -/
theorem C8_coalescing_witness :
    env16.keylen_bits ≤ 32 ∧ Reachable env16 scenario_store ∧
    (wal_find env16 (wal_insert env16 (wal_insert env16 scenario_store bob bob.length 1) bob
        bob.length 2) bob bob.length = (WAL_RESULT_SUCCESS, some 2) ∧
      wal_get_size (wal_insert env16 (wal_insert env16 scenario_store bob bob.length 1) bob
        bob.length 2) = wal_get_size (wal_insert env16 scenario_store bob bob.length 1)) :=
  ⟨by decide, scenario_store_reachable,
    C8_coalescing env16 (by decide) scenario_store scenario_store_reachable bob 1 2⟩

/-- C9, delete then insert.  For every reachable store, key `k` and offsets
`o1`, `o2`: after `wal_insert(k, o1)` and `wal_remove(k)`, `wal_find(k)`
fails; after a following `wal_insert(k, o2)`, `wal_find(k)` returns
`WAL_RESULT_SUCCESS` with `o2`. -/
theorem C9_delete_then_insert (E : Env) (hW : E.keylen_bits ≤ 32) (s : filemgr)
    (h : Reachable E s) (k : List Byte) (o1 o2 : Nat) :
    wal_find E (wal_remove E (wal_insert E s k k.length o1) k k.length) k k.length =
      (WAL_RESULT_FAIL, none) ∧
    wal_find E (wal_insert E (wal_remove E (wal_insert E s k k.length o1) k k.length) k
      k.length o2) k k.length = (WAL_RESULT_SUCCESS, some o2) := by
  have hI := h.inv hW
  have hI1 := (wal_insert_refines hW hI k k.length o1).1
  have hI2 := (wal_remove_refines hW hI1 k k.length).1
  exact ⟨find_remove_same hW hI1 k k.length, find_insert_same hW hI2 k k.length o2⟩

/-- C9 on the scenario store with the key "carol". -/
theorem C9_delete_then_insert_witness :
    env16.keylen_bits ≤ 32 ∧ Reachable env16 scenario_store ∧
    (wal_find env16 (wal_remove env16 (wal_insert env16 scenario_store carol carol.length 1)
        carol carol.length) carol carol.length = (WAL_RESULT_FAIL, none) ∧
      wal_find env16 (wal_insert env16 (wal_remove env16
        (wal_insert env16 scenario_store carol carol.length 1) carol carol.length) carol
        carol.length 2) carol carol.length = (WAL_RESULT_SUCCESS, some 2)) :=
  ⟨by decide, scenario_store_reachable,
    C9_delete_then_insert env16 (by decide) scenario_store scenario_store_reachable carol 1 2⟩

/-- C10, tombstone without prior insert.  On a store fresh from `wal_init` or
`wal_flush`, after `wal_remove(k)` the call `wal_find(k)` fails and
`wal_get_size()` is 1.  On every reachable store, `wal_remove` of a key that
has no entry puts one new element at the head of the order list and leaves
the others; the new entry has the action `REMOVE`, the key as `wal_remove`
stores it and an offset never written; and `size` grows by one. -/
theorem C10_tombstone (E : Env) (hW : E.keylen_bits ≤ 32) :
    (∀ s0, Drained E s0 → ∀ k : List Byte,
      wal_find E (wal_remove E s0 k k.length) k k.length = (WAL_RESULT_FAIL, none) ∧
      wal_get_size (wal_remove E s0 k k.length) = 1) ∧
    (∀ s, Reachable E s → ∀ k : List Byte, resolve E s k k.length = none →
      wal_get_size (wal_remove E s k k.length) = wal_get_size s + 1 ∧
      (wal_remove E s k k.length).wal.list = mempool_alloc s.heap :: s.wal.list ∧
      mempool_alloc s.heap ∉ s.wal.list ∧
      live (wal_remove E s k k.length) = new_remove_item E k k.length :: live s ∧
      (new_remove_item E k k.length).action = WAL_ACT_REMOVE) := by
  constructor
  · intro s0 h0 k
    have hI := h0.reachable.inv hW
    refine ⟨find_remove_same hW hI k k.length, ?_⟩
    have hnone : ¬ (resolve E s0 k k.length).isSome := by
      rw [isSome_resolve_iff hW hI, h0.live hW]
      simp
    rw [size_remove hW hI, if_neg hnone, wal_get_size_live hI, h0.live hW]
    rfl
  · intro s hs k hk
    have hI := hs.inv hW
    have hfun : wal_remove E s k k.length = link_new E s (new_remove_item E k k.length) :=
      wal_remove_none hk
    refine ⟨?_, ?_, hI.1.fresh, ?_, rfl⟩
    · rw [size_remove hW hI, hk]
      rfl
    · rw [hfun]
      rfl
    · rw [hfun]
      exact live_add hI.1 _

/-- C10 on `env16`: "bob" removed from a store just set up, and "dave"
removed from the scenario store. -/
theorem C10_tombstone_witness :
    env16.keylen_bits ≤ 32 ∧ Drained env16 (wal_init blank 16) ∧
    Reachable env16 scenario_store ∧
    resolve env16 scenario_store [100, 97, 118, 101] 4 = none ∧
    (wal_find env16 (wal_remove env16 (wal_init blank 16) bob bob.length) bob bob.length =
        (WAL_RESULT_FAIL, none) ∧
      wal_get_size (wal_remove env16 (wal_init blank 16) bob bob.length) = 1) ∧
    (wal_get_size (wal_remove env16 scenario_store [100, 97, 118, 101] 4) =
        wal_get_size scenario_store + 1 ∧
      (wal_remove env16 scenario_store [100, 97, 118, 101] 4).wal.list =
        mempool_alloc scenario_store.heap :: scenario_store.wal.list ∧
      mempool_alloc scenario_store.heap ∉ scenario_store.wal.list ∧
      live (wal_remove env16 scenario_store [100, 97, 118, 101] 4) =
        new_remove_item env16 [100, 97, 118, 101] 4 :: live scenario_store ∧
      (new_remove_item env16 [100, 97, 118, 101] 4).action = WAL_ACT_REMOVE) :=
  ⟨by decide, Drained.init blank 16 (by decide), scenario_store_reachable, by decide,
    (C10_tombstone env16 (by decide)).1 (wal_init blank 16) (Drained.init blank 16 (by decide))
      bob,
    (C10_tombstone env16 (by decide)).2 scenario_store scenario_store_reachable
      [100, 97, 118, 101] (by decide)⟩

theorem entry_eq_entry_of {E : Env} {s : filemgr} (hW : E.keylen_bits ≤ 32) (hI : Inv E s)
    (key : List Byte) (keylen : Nat) :
    entry E s key keylen = entry_of (live s) (key_ident E key keylen) :=
  (entry_of_live hI.1 hW key keylen).symm

/-- On a linked store a key resolves to a live block or to nothing. -/
theorem entry_isSome_iff {E : Env} {s : filemgr} (hW : E.keylen_bits ≤ 32) (hI : Inv E s)
    (key : List Byte) (keylen : Nat) :
    (entry E s key keylen).isSome ↔ (resolve E s key keylen).isSome := by
  unfold entry
  cases h : resolve E s key keylen with
  | none => simp
  | some p =>
    obtain ⟨_, it, hit, _⟩ := hash_find_some hI.1 (mk_query_keylen_lt E hW key keylen) h
    simp [Option.bind, hit]

theorem wal_find_entry (E : Env) (s : filemgr) (key : List Byte) (keylen : Nat) :
    wal_find E s key keylen =
      match entry E s key keylen with
      | some item =>
        if item.action = WAL_ACT_INSERT then (WAL_RESULT_SUCCESS, item.offset)
        else (WAL_RESULT_FAIL, none)
      | none => (WAL_RESULT_FAIL, none) := by
  simp only [wal_find, entry, resolve]
  cases h : hash_find E s.heap s.wal.hash (mk_query E key keylen) with
  | none => rfl
  | some p =>
    simp only [Option.bind]

/-- `wal_remove` in terms of the entry of the key. -/
theorem wal_remove_of_entry {E : Env} {s : filemgr} {key : List Byte} {keylen p : Nat}
    {it : wal_item} (hp : resolve E s key keylen = some p) (hit : deref s.heap p = some it) :
    wal_remove E s key keylen =
      if it.action = WAL_ACT_INSERT then
        { s with heap := s.heap.set p (some { it with action := WAL_ACT_REMOVE }) }
      else s := by
  unfold resolve at hp
  simp only [wal_remove, hp, hit]

/-- `wal_insert` in terms of the entry of the key. -/
theorem wal_insert_of_entry {E : Env} {s : filemgr} {key : List Byte} {keylen p : Nat}
    {it : wal_item} (o : Nat) (hp : resolve E s key keylen = some p)
    (hit : deref s.heap p = some it) :
    wal_insert E s key keylen o =
      { s with heap := s.heap.set p (some (upd_insert o it)) } := by
  unfold resolve at hp
  simp only [wal_insert, hp, hit, upd_insert]

/-- An entry found by key is an element of the order list. -/
theorem resolve_some {E : Env} {s : filemgr} (hW : E.keylen_bits ≤ 32) (hI : Inv E s)
    {key : List Byte} {keylen p : Nat} (hp : resolve E s key keylen = some p) :
    p ∈ s.wal.list ∧ ∃ it, deref s.heap p = some it ∧ ident it = key_ident E key keylen :=
  hash_find_some hI.1 (mk_query_keylen_lt E hW key keylen) hp

theorem written_abs_insert (E : Env) (L : List wal_item) (key : List Byte) (keylen o : Nat)
    (hL : Written L) : Written (abs_insert E L key keylen o) := by
  unfold abs_insert
  cases entry_of L (key_ident E key keylen) with
  | none =>
    intro it hit ha
    rcases List.mem_cons.1 hit with h | h
    · exact ⟨o, by rw [h]; rfl⟩
    · exact hL it h ha
  | some y =>
    intro it hit ha
    obtain ⟨x, hx, hfx⟩ := List.mem_map.1 hit
    by_cases hid : ident x = key_ident E key keylen
    · rw [if_pos hid] at hfx
      exact ⟨o, by rw [← hfx]; rfl⟩
    · rw [if_neg hid] at hfx
      exact hL it (hfx ▸ hx) ha

theorem written_abs_remove (E : Env) (L : List wal_item) (key : List Byte) (keylen : Nat)
    (hL : Written L) : Written (abs_remove E L key keylen) := by
  unfold abs_remove
  cases entry_of L (key_ident E key keylen) with
  | none =>
    intro it hit ha
    rcases List.mem_cons.1 hit with h | h
    · rw [h] at ha
      cases ha
    · exact hL it h ha
  | some y =>
    intro it hit ha
    obtain ⟨x, hx, hfx⟩ := List.mem_map.1 hit
    by_cases hid : ident x = key_ident E key keylen
    · rw [if_pos hid] at hfx
      unfold upd_remove at hfx
      by_cases hxa : x.action = WAL_ACT_INSERT
      · rw [if_pos hxa] at hfx
        rw [← hfx] at ha
        cases ha
      · rw [if_neg hxa] at hfx
        exact hL it (hfx ▸ hx) ha
    · rw [if_neg hid] at hfx
      exact hL it (hfx ▸ hx) ha

/-- On a reachable store every `INSERT` entry carries the offset of an
insert. -/
theorem Reachable.written {E : Env} (hW : E.keylen_bits ≤ 32) {s : filemgr}
    (h : Reachable E s) : Written (live s) := by
  induction h with
  | init file nbucket h =>
    intro it hit
    cases hit
  | @insert s key offset hs ih =>
    rw [(wal_insert_refines hW (hs.inv hW) key key.length offset).2]
    exact written_abs_insert E _ _ _ _ ih
  | @remove s key hs ih =>
    rw [(wal_remove_refines hW (hs.inv hW) key key.length).2]
    exact written_abs_remove E _ _ _ ih
  | find _ _ ih => exact ih
  | get_size _ ih => exact ih
  | @flush s hs ih =>
    rw [(wal_flush_refines (hs.inv hW)).2.2.2]
    intro it hit
    cases hit

/-- `wal_remove` of a key whose entry is a tombstone changes nothing. -/
theorem wal_remove_noop {E : Env} {s : filemgr} {key : List Byte} {keylen : Nat} {it : wal_item}
    (hent : entry E s key keylen = some it) (ha : it.action = WAL_ACT_REMOVE) :
    wal_remove E s key keylen = s := by
  unfold entry at hent
  cases hp : resolve E s key keylen with
  | none =>
    rw [hp] at hent
    cases hent
  | some p =>
    rw [hp] at hent
    have hit : deref s.heap p = some it := hent
    rw [wal_remove_of_entry hp hit, if_neg]
    rw [ha]
    decide

/-- After `wal_remove` the entry of the key is a tombstone. -/
theorem entry_remove_same {E : Env} {s : filemgr} (hW : E.keylen_bits ≤ 32) (hI : Inv E s)
    (key : List Byte) (keylen : Nat) :
    ∃ x, entry E (wal_remove E s key keylen) key keylen = some x ∧
      x.action = WAL_ACT_REMOVE := by
  obtain ⟨hI', hlive⟩ := wal_remove_refines hW hI key keylen
  rw [entry_eq_entry_of hW hI', hlive]
  exact (entry_of_abs_remove E (live s) key keylen (key_ident E key keylen)).2

/-- After `wal_insert` the entry of the key is an `INSERT` entry with the
offset given. -/
theorem entry_insert_same {E : Env} {s : filemgr} (hW : E.keylen_bits ≤ 32) (hI : Inv E s)
    (key : List Byte) (keylen o : Nat) :
    ∃ x, entry E (wal_insert E s key keylen o) key keylen = some x ∧
      x.action = WAL_ACT_INSERT ∧ x.offset = some o := by
  obtain ⟨hI', hlive⟩ := wal_insert_refines hW hI key keylen o
  rw [entry_eq_entry_of hW hI', hlive]
  exact (entry_of_abs_insert E (live s) key keylen o (key_ident E key keylen)).2

/-- C11, idempotent removal.  For every reachable store and key `k`, the
store after `wal_remove(k)` twice in a row is the store after the first call,
in every field: heap, hash table, order list and `size`.  More generally
`wal_remove` of a key whose entry is already `REMOVE` leaves the store as it
is. -/
theorem C11_idempotent_removal (E : Env) (hW : E.keylen_bits ≤ 32) (s : filemgr)
    (h : Reachable E s) (k : List Byte) :
    wal_remove E (wal_remove E s k k.length) k k.length = wal_remove E s k k.length ∧
    (∀ it, entry E s k k.length = some it → it.action = WAL_ACT_REMOVE →
      wal_remove E s k k.length = s) := by
  constructor
  · obtain ⟨x, hx, ha⟩ := entry_remove_same hW (h.inv hW) k k.length
    exact wal_remove_noop hx ha
  · intro it hent ha
    exact wal_remove_noop hent ha

/-- C11 on the scenario store: "bob" removed twice, and "alice", which is a
tombstone there, removed once more. -/
theorem C11_idempotent_removal_witness :
    env16.keylen_bits ≤ 32 ∧ Reachable env16 scenario_store ∧
    (∃ it, entry env16 scenario_store alice alice.length = some it ∧
      it.action = WAL_ACT_REMOVE) ∧
    wal_remove env16 (wal_remove env16 scenario_store bob bob.length) bob bob.length =
      wal_remove env16 scenario_store bob bob.length ∧
    wal_remove env16 scenario_store alice alice.length = scenario_store :=
  ⟨by decide, scenario_store_reachable, by decide,
    (C11_idempotent_removal env16 (by decide) scenario_store scenario_store_reachable bob).1,
    (C11_idempotent_removal env16 (by decide) scenario_store scenario_store_reachable alice).2
      { key := alice, action := WAL_ACT_REMOVE, keylen := 5, offset := some 100 }
      (by decide) rfl⟩

/-- On a linked store the entry of a key is the entry of the order list that
carries the identity of the key. -/
theorem entry_eq_some_iff {E : Env} {s : filemgr} (hW : E.keylen_bits ≤ 32) (hI : Inv E s)
    (key : List Byte) (keylen : Nat) (it : wal_item) :
    entry E s key keylen = some it ↔ it ∈ live s ∧ ident it = key_ident E key keylen := by
  rw [entry_eq_entry_of hW hI]
  constructor
  · intro h
    exact ⟨(entry_of_some h).2, (entry_of_some h).1⟩
  · rintro ⟨hm, hid⟩
    rw [← hid]
    exact entry_of_mem hI.1.idents_nodup hm

/-- C12, `wal_find` merges absence and logical deletion.  In every store
state, for every key: `wal_find` returns `WAL_RESULT_SUCCESS`, with the
stored offset of the entry, exactly when the key has an entry whose action is
`INSERT`; when the key has no entry and when its entry is a tombstone the
result is the same `WAL_RESULT_FAIL` with nothing written, and
`WAL_RESULT_FAIL` never comes in another form.  On a reachable store the
entry of the key is the entry of the order list with the length and bytes the
key is looked up under, and the offset returned is one that an insert
wrote. -/
theorem C12_find_merges (E : Env) (s : filemgr) (k : List Byte) (keylen : Nat) :
    (∀ r, wal_find E s k keylen = (WAL_RESULT_SUCCESS, r) ↔
      ∃ it, entry E s k keylen = some it ∧ it.action = WAL_ACT_INSERT ∧ r = it.offset) ∧
    (entry E s k keylen = none → wal_find E s k keylen = (WAL_RESULT_FAIL, none)) ∧
    (∀ it, entry E s k keylen = some it → it.action = WAL_ACT_REMOVE →
      wal_find E s k keylen = (WAL_RESULT_FAIL, none)) ∧
    ((wal_find E s k keylen).1 = WAL_RESULT_FAIL →
      wal_find E s k keylen = (WAL_RESULT_FAIL, none)) ∧
    (E.keylen_bits ≤ 32 → Reachable E s →
      (∀ o, wal_find E s k keylen = (WAL_RESULT_SUCCESS, some o) ↔
        ∃ it ∈ live s, ident it = key_ident E k keylen ∧ it.action = WAL_ACT_INSERT ∧
          it.offset = some o) ∧
      ((wal_find E s k keylen).1 = WAL_RESULT_SUCCESS →
        ∃ o, wal_find E s k keylen = (WAL_RESULT_SUCCESS, some o))) := by
  rw [wal_find_entry]
  refine ⟨?_, ?_, ?_, ?_, ?_⟩
  · intro r
    cases h : entry E s k keylen with
    | none => simp
    | some it =>
      by_cases ha : it.action = WAL_ACT_INSERT
      · simp [ha, eq_comm]
      · simp [ha]
  · intro h
    rw [h]
  · intro it h ha
    rw [h]
    simp [ha]
  · cases h : entry E s k keylen with
    | none => simp
    | some it =>
      by_cases ha : it.action = WAL_ACT_INSERT
      · simp [ha]
      · simp [ha]
  · intro hW hs
    have hI := hs.inv hW
    have hwr := hs.written hW
    constructor
    · intro o
      cases h : entry E s k keylen with
      | none =>
        constructor
        · intro hf
          cases congrArg Prod.fst hf
        · rintro ⟨it, hit, hid, _⟩
          have := (entry_eq_some_iff hW hI k keylen it).2 ⟨hit, hid⟩
          rw [h] at this
          cases this
      | some it =>
        obtain ⟨hm, hid⟩ := (entry_eq_some_iff hW hI k keylen it).1 h
        constructor
        · intro hf
          by_cases ha : it.action = WAL_ACT_INSERT
          · simp only [ha, if_true, Prod.mk.injEq, true_and] at hf
            exact ⟨it, hm, hid, ha, hf⟩
          · simp [ha] at hf
        · rintro ⟨it', hm', hid', ha', ho'⟩
          have h' := (entry_eq_some_iff hW hI k keylen it').2 ⟨hm', hid'⟩
          rw [h] at h'
          cases h'
          simp [ha', ho']
    · cases h : entry E s k keylen with
      | none => simp
      | some it =>
        obtain ⟨hm, _⟩ := (entry_eq_some_iff hW hI k keylen it).1 h
        by_cases ha : it.action = WAL_ACT_INSERT
        · obtain ⟨o, ho⟩ := hwr it hm ha
          simp [ha, ho]
        · simp [ha]

/-- C12 on the scenario store: "bob" is found with 200. -/
theorem C12_find_merges_witness :
    env16.keylen_bits ≤ 32 ∧ Reachable env16 scenario_store ∧
    (wal_find env16 scenario_store bob bob.length = (WAL_RESULT_SUCCESS, some 200) ↔
      ∃ it ∈ live scenario_store, ident it = key_ident env16 bob bob.length ∧
        it.action = WAL_ACT_INSERT ∧ it.offset = some 200) ∧
    (entry env16 scenario_store alice alice.length =
        some { key := alice, action := WAL_ACT_REMOVE, keylen := 5, offset := some 100 } →
      wal_find env16 scenario_store alice alice.length = (WAL_RESULT_FAIL, none)) :=
  ⟨by decide, scenario_store_reachable,
    ((C12_find_merges env16 scenario_store bob bob.length).2.2.2.2 (by decide)
      scenario_store_reachable).1 200,
    fun h => (C12_find_merges env16 scenario_store alice alice.length).2.2.1 _ h rfl⟩

/-! ## The comparator and the hash function, as functions -/

theorem wal_hash_eq (E : Env) (h : hash) (item : wal_item) :
    _wal_hash E h item = (djb2_value E item &&& bucket_mask h) % 2 ^ 32 := rfl

theorem djb2_value_lt (E : Env) (item : wal_item) : djb2_value E item < 2 ^ 32 :=
  Nat.mod_lt _ (by norm_num)

theorem take_eq_take_iff_getElem? {α : Type} (a b : List α) (n : Nat) :
    a.take n = b.take n ↔ ∀ i, i < n → a[i]? = b[i]? := by
  constructor
  · intro h i hi
    have h1 : (a.take n)[i]? = a[i]? := List.getElem?_take_of_lt hi
    have h2 : (b.take n)[i]? = b[i]? := List.getElem?_take_of_lt hi
    rw [← h1, ← h2, h]
  · intro h
    apply List.ext_getElem?
    intro i
    by_cases hi : i < n
    · rw [List.getElem?_take_of_lt hi, List.getElem?_take_of_lt hi]
      exact h i hi
    · rw [List.getElem?_take_eq_none (by omega), List.getElem?_take_eq_none (by omega)]

theorem keylen_lt_of_bits (E : Env) (hW : E.keylen_bits ≤ 32) (n : Nat)
    (hn : n < 2 ^ E.keylen_bits) : n < 2 ^ 32 :=
  lt_of_lt_of_le hn (Nat.pow_le_pow_right (by norm_num) hW)

/-- C13, the comparator.  For two elements whose key lengths (values of
`keylen_t`) differ, `_wal_cmp` returns a non-zero value, and that value is
fixed by the two lengths alone: the key bytes are not looked at.  For two
elements of equal key length, `_wal_cmp` returns 0 exactly when the keys
agree on every one of their `keylen` bytes. -/
theorem C13_comparator (E : Env) (hW : E.keylen_bits ≤ 32) (a b : wal_item)
    (ha : a.keylen < 2 ^ E.keylen_bits) (hb : b.keylen < 2 ^ E.keylen_bits) :
    (a.keylen ≠ b.keylen →
      _wal_cmp a b ≠ 0 ∧
      ∀ a' b' : wal_item, a'.keylen = a.keylen → b'.keylen = b.keylen →
        _wal_cmp a' b' = _wal_cmp a b) ∧
    (a.keylen = b.keylen →
      (_wal_cmp a b = 0 ↔ a.key.take a.keylen = b.key.take b.keylen) ∧
      (_wal_cmp a b = 0 ↔ ∀ i, i < a.keylen → a.key[i]? = b.key[i]?)) := by
  have ha' := keylen_lt_of_bits E hW _ ha
  have hb' := keylen_lt_of_bits E hW _ hb
  constructor
  · intro hne
    constructor
    · intro h0
      have := (wal_cmp_eq_zero a b ha' hb').1 h0
      exact hne (congrArg Prod.fst this)
    · intro a' b' h1 h2
      unfold _wal_cmp
      rw [h1, h2]
      simp [hne]
  · intro heq
    have h1 : _wal_cmp a b = 0 ↔ a.key.take a.keylen = b.key.take b.keylen := by
      rw [wal_cmp_eq_zero a b ha' hb']
      unfold ident
      constructor
      · intro h
        exact congrArg Prod.snd h
      · intro h
        rw [h, heq]
    refine ⟨h1, ?_⟩
    rw [h1, ← heq]
    exact take_eq_take_iff_getElem? _ _ _

/-- C13 on `env16`: "alice" against "bob" (lengths 5 and 3) and "alice"
against "carol" (both of length 5). -/
theorem C13_comparator_witness :
    env16.keylen_bits ≤ 32 ∧
    (mk_query env16 alice 5).keylen < 2 ^ env16.keylen_bits ∧
    (mk_query env16 bob 3).keylen < 2 ^ env16.keylen_bits ∧
    (mk_query env16 carol 5).keylen < 2 ^ env16.keylen_bits ∧
    (mk_query env16 alice 5).keylen ≠ (mk_query env16 bob 3).keylen ∧
    (mk_query env16 alice 5).keylen = (mk_query env16 carol 5).keylen ∧
    _wal_cmp (mk_query env16 alice 5) (mk_query env16 bob 3) ≠ 0 ∧
    (_wal_cmp (mk_query env16 alice 5) (mk_query env16 carol 5) = 0 ↔
      (mk_query env16 alice 5).key.take (mk_query env16 alice 5).keylen =
        (mk_query env16 carol 5).key.take (mk_query env16 carol 5).keylen) :=
  ⟨by decide, by decide, by decide, by decide, by decide, by decide,
    ((C13_comparator env16 (by decide) (mk_query env16 alice 5) (mk_query env16 bob 3)
      (by decide) (by decide)).1 (by decide)).1,
    ((C13_comparator env16 (by decide) (mk_query env16 alice 5) (mk_query env16 carol 5)
      (by decide) (by decide)).2 (by decide)).1⟩

/-- C18, hash/comparator consistency.  For every bucket count and any two
elements (key lengths being values of `keylen_t`): if `_wal_cmp` returns 0
for them, `_wal_hash` gives them the same bucket. -/
theorem C18_hash_cmp_consistent (E : Env) (hW : E.keylen_bits ≤ 32) (h : hash)
    (a b : wal_item) (ha : a.keylen < 2 ^ E.keylen_bits) (hb : b.keylen < 2 ^ E.keylen_bits)
    (hc : _wal_cmp a b = 0) : _wal_hash E h a = _wal_hash E h b :=
  wal_hash_ident E h a b
    ((wal_cmp_eq_zero a b (keylen_lt_of_bits E hW _ ha) (keylen_lt_of_bits E hW _ hb)).1 hc)

/-- C18 on `env16`: the query for "alice" and the entry a `wal_remove` of
"alice" sets up, in a table of 16 buckets. -/
theorem C18_hash_cmp_consistent_witness :
    env16.keylen_bits ≤ 32 ∧
    (mk_query env16 alice 5).keylen < 2 ^ env16.keylen_bits ∧
    (new_remove_item env16 alice 5).keylen < 2 ^ env16.keylen_bits ∧
    _wal_cmp (mk_query env16 alice 5) (new_remove_item env16 alice 5) = 0 ∧
    _wal_hash env16 (hash_init 16) (mk_query env16 alice 5) =
      _wal_hash env16 (hash_init 16) (new_remove_item env16 alice 5) :=
  ⟨by decide, by decide, by decide, by decide,
    C18_hash_cmp_consistent env16 (by decide) (hash_init 16) (mk_query env16 alice 5)
      (new_remove_item env16 alice 5) (by decide) (by decide) (by decide)⟩

theorem bucket_mask_pos (h : hash) (h1 : 1 ≤ h.nbuckets) : bucket_mask h ≤ h.nbuckets - 1 := by
  unfold bucket_mask
  norm_num
  omega

theorem bucket_mask_small (h : hash) (h1 : 1 ≤ h.nbuckets) (h2 : h.nbuckets < 2 ^ 64) :
    bucket_mask h = h.nbuckets - 1 := by
  unfold bucket_mask
  norm_num at h2 ⊢
  omega

theorem bucket_mask_zero (h : hash) (h0 : h.nbuckets = 0) : bucket_mask h = 2 ^ 64 - 1 := by
  unfold bucket_mask
  rw [h0]
  norm_num

/-- The hash of an element in a table whose bucket count is a power of two. -/
theorem wal_hash_pow_two (E : Env) (h : hash) (item : wal_item) (k : Nat)
    (hk : h.nbuckets = 2 ^ k) :
    _wal_hash E h item = djb2_value E item % 2 ^ k := by
  have hD := djb2_value_lt E item
  rw [wal_hash_eq]
  by_cases hk64 : k < 64
  · have hP : 2 ^ k < 2 ^ 64 := Nat.pow_lt_pow_right (by norm_num) hk64
    have hP1 : 1 ≤ 2 ^ k := Nat.one_le_two_pow
    rw [bucket_mask_small h (hk ▸ hP1) (hk ▸ hP), hk, Nat.and_pow_two_sub_one_eq_mod]
    exact Nat.mod_eq_of_lt (lt_of_le_of_lt (Nat.mod_le _ _) hD)
  · have hP : 2 ^ 64 ≤ 2 ^ k := Nat.pow_le_pow_right (by norm_num) (by omega)
    have hdvd : 2 ^ 64 ∣ 2 ^ k := Nat.pow_dvd_pow 2 (by omega)
    have hm : bucket_mask h = 2 ^ 64 - 1 := by
      unfold bucket_mask
      rw [hk, Nat.mod_eq_zero_of_dvd hdvd]
      norm_num
    rw [hm, Nat.and_pow_two_sub_one_eq_mod]
    have h1 : djb2_value E item % 2 ^ 64 = djb2_value E item :=
      Nat.mod_eq_of_lt (lt_trans hD (by norm_num))
    have h2 : djb2_value E item % 2 ^ k = djb2_value E item :=
      Nat.mod_eq_of_lt (lt_of_lt_of_le (lt_trans hD (by norm_num)) hP)
    rw [h1, h2]
    exact Nat.mod_eq_of_lt hD

/-- C14, the hash function.  `_wal_hash` is fixed by the bucket count and the
first `MIN(8, keylen)` bytes of the key: two elements that agree on these get
the same bucket in tables of the same bucket count, so two keys of length at
least 8 that agree on their first 8 bytes get the same bucket.  When the
bucket count `n` is a power of two, the result is the djb2 value of those
bytes AND `n - 1`, which is that value modulo `n` and is less than `n`. -/
theorem C14_hash_function (E : Env) (h : hash) (a : wal_item) :
    (∀ (h' : hash) (b : wal_item), h'.nbuckets = h.nbuckets →
      a.key.take (min 8 a.keylen) = b.key.take (min 8 b.keylen) →
      _wal_hash E h a = _wal_hash E h' b) ∧
    (∀ b : wal_item, 8 ≤ a.keylen → 8 ≤ b.keylen → a.key.take 8 = b.key.take 8 →
      _wal_hash E h a = _wal_hash E h b) ∧
    (∀ k : Nat, h.nbuckets = 2 ^ k →
      _wal_hash E h a = djb2_value E a &&& (h.nbuckets - 1) ∧
      _wal_hash E h a = djb2_value E a % h.nbuckets ∧
      _wal_hash E h a < h.nbuckets) := by
  refine ⟨?_, ?_, ?_⟩
  · intro h' b hn hab
    unfold _wal_hash
    rw [hn, hab]
  · intro b ha hb hab
    unfold _wal_hash
    rw [Nat.min_eq_left ha, Nat.min_eq_left hb, hab]
  · intro k hk
    have hv := wal_hash_pow_two E h a k hk
    rw [hv, hk]
    exact ⟨(Nat.and_pow_two_sub_one_eq_mod _ _).symm, rfl, Nat.mod_lt _ (by positivity)⟩

/-- C14 on `env16` with 16 buckets: two keys of 9 bytes that differ in the
last byte only. -/
theorem C14_hash_function_witness :
    (hash_init 16).nbuckets = 2 ^ 4 ∧
    (8 : Nat) ≤ (mk_query env16 [1, 2, 3, 4, 5, 6, 7, 8, 9] 9).keylen ∧
    (8 : Nat) ≤ (mk_query env16 [1, 2, 3, 4, 5, 6, 7, 8, 0] 9).keylen ∧
    (mk_query env16 [1, 2, 3, 4, 5, 6, 7, 8, 9] 9).key.take 8 =
      (mk_query env16 [1, 2, 3, 4, 5, 6, 7, 8, 0] 9).key.take 8 ∧
    _wal_hash env16 (hash_init 16) (mk_query env16 [1, 2, 3, 4, 5, 6, 7, 8, 9] 9) =
      _wal_hash env16 (hash_init 16) (mk_query env16 [1, 2, 3, 4, 5, 6, 7, 8, 0] 9) ∧
    (_wal_hash env16 (hash_init 16) (mk_query env16 [1, 2, 3, 4, 5, 6, 7, 8, 9] 9) =
        djb2_value env16 (mk_query env16 [1, 2, 3, 4, 5, 6, 7, 8, 9] 9) &&&
          ((hash_init 16).nbuckets - 1) ∧
      _wal_hash env16 (hash_init 16) (mk_query env16 [1, 2, 3, 4, 5, 6, 7, 8, 9] 9) =
        djb2_value env16 (mk_query env16 [1, 2, 3, 4, 5, 6, 7, 8, 9] 9) %
          (hash_init 16).nbuckets ∧
      _wal_hash env16 (hash_init 16) (mk_query env16 [1, 2, 3, 4, 5, 6, 7, 8, 9] 9) <
        (hash_init 16).nbuckets) :=
  ⟨by decide, by decide, by decide, by decide,
    (C14_hash_function env16 (hash_init 16)
      (mk_query env16 [1, 2, 3, 4, 5, 6, 7, 8, 9] 9)).2.1 _ (by decide) (by decide) (by decide),
    (C14_hash_function env16 (hash_init 16)
      (mk_query env16 [1, 2, 3, 4, 5, 6, 7, 8, 9] 9)).2.2 4 (by decide)⟩

/-- C20, the bucket index stays in range without the power-of-two
assumption.  For every bucket count `n ≥ 1`, power of two or not, and every
element, `_wal_hash` returns at most `n - 1`, a valid bucket index; for `n`
in the range of `uint64_t` the mask is `n - 1` and not all ones.  For `n = 0`
the mask is all ones and `_wal_hash` returns the whole 32-bit djb2 value,
which is no index into a table without buckets. -/
theorem C20_bucket_index (E : Env) (h : hash) (item : wal_item) :
    (1 ≤ h.nbuckets →
      _wal_hash E h item ≤ h.nbuckets - 1 ∧ _wal_hash E h item < h.nbuckets) ∧
    (1 ≤ h.nbuckets → h.nbuckets < 2 ^ 64 →
      bucket_mask h = h.nbuckets - 1 ∧ bucket_mask h ≠ 2 ^ 64 - 1) ∧
    (h.nbuckets = 0 →
      bucket_mask h = 2 ^ 64 - 1 ∧ _wal_hash E h item = djb2_value E item ∧
      ¬ _wal_hash E h item < h.nbuckets) := by
  refine ⟨?_, ?_, ?_⟩
  · intro h1
    have := wal_hash_lt E h item h1
    omega
  · intro h1 h2
    have := bucket_mask_small h h1 h2
    refine ⟨this, ?_⟩
    rw [this]
    norm_num at h2 ⊢
    omega
  · intro h0
    have hm := bucket_mask_zero h h0
    refine ⟨hm, ?_, ?_⟩
    · rw [wal_hash_eq, hm, Nat.and_pow_two_sub_one_eq_mod,
        Nat.mod_eq_of_lt (lt_trans (djb2_value_lt E item) (by norm_num))]
      exact Nat.mod_eq_of_lt (djb2_value_lt E item)
    · rw [h0]
      exact Nat.not_lt_zero _

/-- C20 on `env16`: ten buckets, not a power of two, and no bucket at all. -/
theorem C20_bucket_index_witness :
    1 ≤ (hash_init 10).nbuckets ∧ (hash_init 10).nbuckets < 2 ^ 64 ∧
    (hash_init 0).nbuckets = 0 ∧
    (_wal_hash env16 (hash_init 10) (mk_query env16 alice 5) ≤ (hash_init 10).nbuckets - 1 ∧
      _wal_hash env16 (hash_init 10) (mk_query env16 alice 5) < (hash_init 10).nbuckets) ∧
    (bucket_mask (hash_init 10) = (hash_init 10).nbuckets - 1 ∧
      bucket_mask (hash_init 10) ≠ 2 ^ 64 - 1) ∧
    (bucket_mask (hash_init 0) = 2 ^ 64 - 1 ∧
      _wal_hash env16 (hash_init 0) (mk_query env16 alice 5) =
        djb2_value env16 (mk_query env16 alice 5) ∧
      ¬ _wal_hash env16 (hash_init 0) (mk_query env16 alice 5) < (hash_init 0).nbuckets) :=
  ⟨by decide, by decide, by decide,
    (C20_bucket_index env16 (hash_init 10) (mk_query env16 alice 5)).1 (by decide),
    (C20_bucket_index env16 (hash_init 10) (mk_query env16 alice 5)).2.1 (by decide)
      (by decide),
    (C20_bucket_index env16 (hash_init 0) (mk_query env16 alice 5)).2.2 (by decide)⟩

/-! ## Steps of `size` and of the state of a key -/

theorem do_call_inv {E : Env} {s : filemgr} (hW : E.keylen_bits ≤ 32) (hI : Inv E s)
    (c : Call) : Inv E (do_call E s c).2 := by
  cases c with
  | insert k o => exact (wal_insert_refines hW hI k k.length o).1
  | remove k => exact (wal_remove_refines hW hI k k.length).1
  | find k => exact hI
  | get_size => exact hI

theorem run_calls_state_cons (E : Env) (s : filemgr) (c : Call) (cs : List Call) :
    run_calls_state E s (c :: cs) = run_calls_state E (do_call E s c).2 cs := rfl

theorem size_le_insert {E : Env} {s : filemgr} (hW : E.keylen_bits ≤ 32) (hI : Inv E s)
    (key : List Byte) (keylen o : Nat) :
    wal_get_size s ≤ wal_get_size (wal_insert E s key keylen o) := by
  rw [size_insert hW hI]
  split <;> omega

theorem size_le_remove {E : Env} {s : filemgr} (hW : E.keylen_bits ≤ 32) (hI : Inv E s)
    (key : List Byte) (keylen : Nat) :
    wal_get_size s ≤ wal_get_size (wal_remove E s key keylen) := by
  rw [size_remove hW hI]
  split <;> omega

/-- No sequence of `wal_insert`, `wal_remove`, `wal_find` and `wal_get_size`
calls makes `size` smaller. -/
theorem size_le_run_calls {E : Env} (hW : E.keylen_bits ≤ 32) (cs : List Call) :
    ∀ s : filemgr, Inv E s → wal_get_size s ≤ wal_get_size (run_calls_state E s cs) := by
  induction cs with
  | nil => intro s _; exact Nat.le_refl _
  | cons c cs ih =>
    intro s hI
    rw [run_calls_state_cons]
    refine Nat.le_trans ?_ (ih _ (do_call_inv hW hI c))
    cases c with
    | insert k o => exact size_le_insert hW hI k k.length o
    | remove k => exact size_le_remove hW hI k k.length
    | find k => exact Nat.le_refl _
    | get_size => exact Nat.le_refl _

/-- A store in which some key has an entry has a positive `size`. -/
theorem size_pos_of_entry {E : Env} {s : filemgr} (hW : E.keylen_bits ≤ 32) (hI : Inv E s)
    {key : List Byte} {keylen : Nat} {it : wal_item} (h : entry E s key keylen = some it) :
    0 < wal_get_size s := by
  rw [wal_get_size_live hI]
  exact List.length_pos_of_mem ((entry_eq_some_iff hW hI key keylen it).1 h).1

/-- C15, the step rule of `size`.  On every reachable store: `wal_insert`
and `wal_remove` add exactly 1 to `size` when the key has no entry and leave
`size` as it is when the key has one; `wal_find` and `wal_get_size` leave the
store, and so `size`, as it is; no sequence of these four calls makes `size`
smaller; after `wal_insert` or `wal_remove` `size` is not zero, while
`wal_init` and `wal_flush` set it to zero. -/
theorem C15_size_step (E : Env) (hW : E.keylen_bits ≤ 32) (s : filemgr) (h : Reachable E s)
    (k : List Byte) (o : Nat) :
    (entry E s k k.length = none →
      wal_get_size (wal_insert E s k k.length o) = wal_get_size s + 1 ∧
      wal_get_size (wal_remove E s k k.length) = wal_get_size s + 1) ∧
    ((entry E s k k.length).isSome →
      wal_get_size (wal_insert E s k k.length o) = wal_get_size s ∧
      wal_get_size (wal_remove E s k k.length) = wal_get_size s) ∧
    (do_call E s (Call.find k)).2 = s ∧ (do_call E s Call.get_size).2 = s ∧
    (∀ calls : List Call, wal_get_size s ≤ wal_get_size (run_calls_state E s calls)) ∧
    0 < wal_get_size (wal_insert E s k k.length o) ∧
    0 < wal_get_size (wal_remove E s k k.length) ∧
    (∀ (file : filemgr) (nbucket : Nat), wal_get_size (wal_init file nbucket) = 0) ∧
    wal_get_size (wal_flush E s).2 = 0 := by
  have hI := h.inv hW
  have hiff := entry_isSome_iff hW hI k k.length
  refine ⟨?_, ?_, rfl, rfl, fun calls => size_le_run_calls hW calls s hI, ?_, ?_,
    fun _ _ => rfl, ?_⟩
  · intro hnone
    have hr : ¬ (resolve E s k k.length).isSome := by
      rw [← hiff, hnone]
      simp
    rw [size_insert hW hI, size_remove hW hI, if_neg hr]
    exact ⟨rfl, rfl⟩
  · intro hsome
    have hr : (resolve E s k k.length).isSome := hiff.1 hsome
    rw [size_insert hW hI, size_remove hW hI, if_pos hr]
    exact ⟨rfl, rfl⟩
  · obtain ⟨x, hx, _⟩ := entry_insert_same hW hI k k.length o
    exact size_pos_of_entry hW (wal_insert_refines hW hI k k.length o).1 hx
  · obtain ⟨x, hx, _⟩ := entry_remove_same hW hI k k.length
    exact size_pos_of_entry hW (wal_remove_refines hW hI k k.length).1 hx
  · unfold wal_get_size
    rw [(wal_flush_refines hI).2.1]
    rfl

/-- C15 on the scenario store: "bob" has an entry there, "dave" has none. -/
theorem C15_size_step_witness :
    env16.keylen_bits ≤ 32 ∧ Reachable env16 scenario_store ∧
    entry env16 scenario_store [100, 97, 118, 101] 4 = none ∧
    (entry env16 scenario_store bob bob.length).isSome ∧
    (wal_get_size (wal_insert env16 scenario_store [100, 97, 118, 101] 4 9) =
        wal_get_size scenario_store + 1 ∧
      wal_get_size (wal_remove env16 scenario_store [100, 97, 118, 101] 4) =
        wal_get_size scenario_store + 1) ∧
    (wal_get_size (wal_insert env16 scenario_store bob bob.length 9) =
        wal_get_size scenario_store ∧
      wal_get_size (wal_remove env16 scenario_store bob bob.length) =
        wal_get_size scenario_store) ∧
    wal_get_size scenario_store ≤
      wal_get_size (run_calls_state env16 scenario_store
        [Call.find bob, Call.remove bob, Call.get_size, Call.insert alice 1]) ∧
    wal_get_size (wal_flush env16 scenario_store).2 = 0 :=
  ⟨by decide, scenario_store_reachable, by decide, by decide,
    (C15_size_step env16 (by decide) scenario_store scenario_store_reachable
      [100, 97, 118, 101] 9).1 (by decide),
    (C15_size_step env16 (by decide) scenario_store scenario_store_reachable bob 9).2.1
      (by decide),
    (C15_size_step env16 (by decide) scenario_store scenario_store_reachable bob
      9).2.2.2.2.1 _,
    (C15_size_step env16 (by decide) scenario_store scenario_store_reachable bob
      9).2.2.2.2.2.2.2.2⟩

/-- The entry of any key after `wal_insert`. -/
theorem entry_insert {E : Env} {s : filemgr} (hW : E.keylen_bits ≤ 32) (hI : Inv E s)
    (k : List Byte) (n o : Nat) (k' : List Byte) (n' : Nat) :
    (key_ident E k' n' ≠ key_ident E k n →
      entry E (wal_insert E s k n o) k' n' = entry E s k' n') ∧
    (key_ident E k' n' = key_ident E k n →
      ∃ x, entry E (wal_insert E s k n o) k' n' = some x ∧ x.action = WAL_ACT_INSERT ∧
        x.offset = some o) := by
  obtain ⟨hI', hlive⟩ := wal_insert_refines hW hI k n o
  rw [entry_eq_entry_of hW hI', entry_eq_entry_of hW hI, hlive]
  constructor
  · exact (entry_of_abs_insert E (live s) k n o _).1
  · intro heq
    rw [heq]
    exact (entry_of_abs_insert E (live s) k n o (key_ident E k n)).2

/-- The entry of any key after `wal_remove`. -/
theorem entry_remove {E : Env} {s : filemgr} (hW : E.keylen_bits ≤ 32) (hI : Inv E s)
    (k : List Byte) (n : Nat) (k' : List Byte) (n' : Nat) :
    (key_ident E k' n' ≠ key_ident E k n →
      entry E (wal_remove E s k n) k' n' = entry E s k' n') ∧
    (key_ident E k' n' = key_ident E k n →
      ∃ x, entry E (wal_remove E s k n) k' n' = some x ∧ x.action = WAL_ACT_REMOVE) := by
  obtain ⟨hI', hlive⟩ := wal_remove_refines hW hI k n
  rw [entry_eq_entry_of hW hI', entry_eq_entry_of hW hI, hlive]
  constructor
  · exact (entry_of_abs_remove E (live s) k n _).1
  · intro heq
    rw [heq]
    exact (entry_of_abs_remove E (live s) k n (key_ident E k n)).2

/-- The state of any key after `wal_insert`. -/
theorem key_state_insert {E : Env} {s : filemgr} (hW : E.keylen_bits ≤ 32) (hI : Inv E s)
    (k : List Byte) (n o : Nat) (k' : List Byte) (n' : Nat) :
    key_state E (wal_insert E s k n o) k' n' =
      if key_ident E k' n' = key_ident E k n then some WAL_ACT_INSERT
      else key_state E s k' n' := by
  unfold key_state
  by_cases h : key_ident E k' n' = key_ident E k n
  · obtain ⟨x, hx, ha, _⟩ := (entry_insert hW hI k n o k' n').2 h
    rw [if_pos h, hx, Option.map_some', ha]
  · rw [if_neg h, (entry_insert hW hI k n o k' n').1 h]

/-- The state of any key after `wal_remove`. -/
theorem key_state_remove {E : Env} {s : filemgr} (hW : E.keylen_bits ≤ 32) (hI : Inv E s)
    (k : List Byte) (n : Nat) (k' : List Byte) (n' : Nat) :
    key_state E (wal_remove E s k n) k' n' =
      if key_ident E k' n' = key_ident E k n then some WAL_ACT_REMOVE
      else key_state E s k' n' := by
  unfold key_state
  by_cases h : key_ident E k' n' = key_ident E k n
  · obtain ⟨x, hx, ha⟩ := (entry_remove hW hI k n k' n').2 h
    rw [if_pos h, hx, Option.map_some', ha]
  · rw [if_neg h, (entry_remove hW hI k n k' n').1 h]

/-- A key that has an entry keeps one through every sequence of
`wal_insert`, `wal_remove`, `wal_find` and `wal_get_size` calls. -/
theorem key_state_run_calls {E : Env} (hW : E.keylen_bits ≤ 32) (k : List Byte) (n : Nat)
    (cs : List Call) :
    ∀ s : filemgr, Inv E s → key_state E s k n ≠ none →
      key_state E (run_calls_state E s cs) k n ≠ none := by
  induction cs with
  | nil => intro s _ h; exact h
  | cons c cs ih =>
    intro s hI h
    rw [run_calls_state_cons]
    apply ih _ (do_call_inv hW hI c)
    cases c with
    | insert k' o =>
      show key_state E (wal_insert E s k' k'.length o) k n ≠ none
      rw [key_state_insert hW hI]
      split
      · simp
      · exact h
    | remove k' =>
      show key_state E (wal_remove E s k' k'.length) k n ≠ none
      rw [key_state_remove hW hI]
      split
      · simp
      · exact h
    | find k' => exact h
    | get_size => exact h

/-- C16, the state machine of a key.  Take the state of a key to be absent
(`none`), `INSERT` or `REMOVE`.  On every reachable store `wal_insert(k)`
takes `k` from any state to `INSERT` and `wal_remove(k)` takes it from any
state to `REMOVE`; a key that is looked up under another length or other
bytes keeps its state, so these are the only transitions; a key that has an
entry is never absent after any sequence of `wal_insert`, `wal_remove`,
`wal_find` and `wal_get_size` calls; after `wal_flush` every key is
absent. -/
theorem C16_key_state_machine (E : Env) (hW : E.keylen_bits ≤ 32) (s : filemgr)
    (h : Reachable E s) (k k' : List Byte) (o : Nat) :
    key_state E (wal_insert E s k k.length o) k k.length = some WAL_ACT_INSERT ∧
    key_state E (wal_remove E s k k.length) k k.length = some WAL_ACT_REMOVE ∧
    key_state E (wal_insert E s k k.length o) k' k'.length =
      (if key_ident E k' k'.length = key_ident E k k.length then some WAL_ACT_INSERT
       else key_state E s k' k'.length) ∧
    key_state E (wal_remove E s k k.length) k' k'.length =
      (if key_ident E k' k'.length = key_ident E k k.length then some WAL_ACT_REMOVE
       else key_state E s k' k'.length) ∧
    (∀ calls : List Call, key_state E s k' k'.length ≠ none →
      key_state E (run_calls_state E s calls) k' k'.length ≠ none) ∧
    key_state E (wal_flush E s).2 k' k'.length = none := by
  have hI := h.inv hW
  refine ⟨?_, ?_, key_state_insert hW hI _ _ _ _ _, key_state_remove hW hI _ _ _ _,
    fun calls => key_state_run_calls hW k' k'.length calls s hI, ?_⟩
  · rw [key_state_insert hW hI, if_pos rfl]
  · rw [key_state_remove hW hI, if_pos rfl]
  · obtain ⟨_, _, hI', hlive⟩ := wal_flush_refines hI
    unfold key_state
    rw [entry_eq_entry_of hW hI', hlive]
    rfl

/-- C16 on the scenario store, where "alice" is a tombstone and "bob" an
insert. -/
theorem C16_key_state_machine_witness :
    env16.keylen_bits ≤ 32 ∧ Reachable env16 scenario_store ∧
    key_state env16 scenario_store bob bob.length ≠ none ∧
    key_state env16 (wal_insert env16 scenario_store alice alice.length 5) alice
      alice.length = some WAL_ACT_INSERT ∧
    key_state env16 (wal_remove env16 scenario_store alice alice.length) alice
      alice.length = some WAL_ACT_REMOVE ∧
    key_state env16 (run_calls_state env16 scenario_store
      [Call.remove bob, Call.find bob, Call.insert alice 1, Call.get_size]) bob
      bob.length ≠ none ∧
    key_state env16 (wal_flush env16 scenario_store).2 bob bob.length = none :=
  ⟨by decide, scenario_store_reachable, by decide,
    (C16_key_state_machine env16 (by decide) scenario_store scenario_store_reachable alice
      bob 5).1,
    (C16_key_state_machine env16 (by decide) scenario_store scenario_store_reachable alice
      bob 5).2.1,
    (C16_key_state_machine env16 (by decide) scenario_store scenario_store_reachable alice
      bob 5).2.2.2.2.1 _ (by decide),
    (C16_key_state_machine env16 (by decide) scenario_store scenario_store_reachable alice
      bob 5).2.2.2.2.2⟩

/-! ## What a call leaves alone -/

theorem entry_of_resolve {E : Env} {s : filemgr} {key : List Byte} {keylen p : Nat}
    {it : wal_item} (hp : resolve E s key keylen = some p) (hit : deref s.heap p = some it) :
    entry E s key keylen = some it := by
  unfold entry
  rw [hp]
  exact hit

theorem call_of_upd_remove (x : wal_item) : call_of (upd_remove x) = as_remove (call_of x) := by
  unfold upd_remove
  by_cases ha : x.action = WAL_ACT_INSERT
  · rw [if_pos ha]
    rfl
  · rw [if_neg ha]
    have hr : x.action = WAL_ACT_REMOVE := by
      cases hx : x.action
      · exact absurd hx ha
      · rfl
    unfold as_remove call_of
    simp [hr]

theorem mem_flush_of_entry {E : Env} {s : filemgr} (hW : E.keylen_bits ≤ 32) (hI : Inv E s)
    {key : List Byte} {keylen : Nat} {it : wal_item} (h : entry E s key keylen = some it) :
    call_of it ∈ (wal_flush E s).1 := by
  rw [(wal_flush_refines hI).1]
  exact List.mem_map_of_mem call_of ((entry_eq_some_iff hW hI key keylen it).1 h).1

/-- C17, `wal_remove` keeps the offset.  On a reachable store where the key
`k` has an entry with action `INSERT` and offset `o`, `wal_remove(k)` changes
nothing but the action of that one block, which becomes `REMOVE` while its
offset stays `o`; so a following `wal_flush` makes the same calls as a flush
before the removal would have, except that the call for this entry has the
action `REMOVE`: it is called with the stored key and key length, `o` and
`REMOVE`, and for a key whose length fits `keylen_t` the stored key and
length are `k` and its length. -/
theorem C17_remove_keeps_offset (E : Env) (hW : E.keylen_bits ≤ 32) (s : filemgr)
    (h : Reachable E s) (k : List Byte) (p : Nat) (it : wal_item) (o : Nat)
    (hp : resolve E s k k.length = some p) (hit : deref s.heap p = some it)
    (ha : it.action = WAL_ACT_INSERT) (ho : it.offset = some o) :
    wal_remove E s k k.length = { s with heap := s.heap.set p (some (tombstone_of it)) } ∧
    entry E (wal_remove E s k k.length) k k.length = some (tombstone_of it) ∧
    (tombstone_of it).offset = some o ∧
    (wal_flush E (wal_remove E s k k.length)).1 =
      (wal_flush E s).1.map (fun c =>
        if (c.keylen, c.key) = key_ident E k k.length then as_remove c else c) ∧
    { key := it.key.take it.keylen, keylen := it.keylen, offset := some o,
      action := WAL_ACT_REMOVE } ∈ (wal_flush E (wal_remove E s k k.length)).1 ∧
    (k.length < 2 ^ E.keylen_bits →
      { key := k, keylen := k.length, offset := some o, action := WAL_ACT_REMOVE } ∈
        (wal_flush E (wal_remove E s k k.length)).1) := by
  have hI := h.inv hW
  obtain ⟨hI', hlive⟩ := wal_remove_refines hW hI k k.length
  have hent : entry E s k k.length = some it := entry_of_resolve hp hit
  have hent_of : entry_of (live s) (key_ident E k k.length) = some it := by
    rw [← entry_eq_entry_of hW hI]
    exact hent
  have hid : ident it = key_ident E k k.length := (entry_of_some hent_of).1
  have hupd : upd_remove it = tombstone_of it := by
    unfold upd_remove tombstone_of
    rw [if_pos ha]
  have hlive' : live (wal_remove E s k k.length) =
      (live s).map (fun x => if ident x = key_ident E k k.length then upd_remove x else x) := by
    rw [hlive]
    unfold abs_remove
    rw [hent_of]
  have hent' : entry E (wal_remove E s k k.length) k k.length = some (tombstone_of it) := by
    rw [entry_eq_entry_of hW hI', hlive', entry_of_map_if _ _ ident_upd_remove, if_pos rfl,
      hent_of, Option.map_some', hupd]
  have hcall : call_of (tombstone_of it) =
      { key := it.key.take it.keylen, keylen := it.keylen, offset := some o,
        action := WAL_ACT_REMOVE } := by
    unfold call_of tombstone_of
    simp [ho]
  have hmem := mem_flush_of_entry hW hI' hent'
  rw [hcall] at hmem
  refine ⟨?_, hent', ho, ?_, hmem, ?_⟩
  · rw [wal_remove_of_entry hp hit, if_pos ha]
    rfl
  · rw [(wal_flush_refines hI').1, (wal_flush_refines hI).1, hlive', List.map_map, List.map_map]
    apply List.map_congr_left
    intro x _
    simp only [Function.comp]
    by_cases hx : ident x = key_ident E k k.length
    · have hx' : ((call_of x).keylen, (call_of x).key) = key_ident E k k.length := hx
      rw [if_pos hx, if_pos hx', call_of_upd_remove]
    · have hx' : ¬ ((call_of x).keylen, (call_of x).key) = key_ident E k k.length := hx
      rw [if_neg hx, if_neg hx']
  · intro hk
    rw [key_ident_fit E k hk] at hid
    have h1 : it.keylen = k.length := congrArg Prod.fst hid
    have h2 : it.key.take it.keylen = k := congrArg Prod.snd hid
    rw [h1] at hmem
    rw [h1] at h2
    rw [h2] at hmem
    exact hmem

/-- C17 on `env16`: "bob" removed from the scenario store, where it is the
block at address 1 with offset 200. -/
theorem C17_remove_keeps_offset_witness :
    env16.keylen_bits ≤ 32 ∧ Reachable env16 scenario_store ∧
    resolve env16 scenario_store bob bob.length = some 1 ∧
    deref scenario_store.heap 1 =
      some { key := bob, action := WAL_ACT_INSERT, keylen := 3, offset := some 200 } ∧
    bob.length < 2 ^ env16.keylen_bits ∧
    wal_remove env16 scenario_store bob bob.length =
      { scenario_store with heap := scenario_store.heap.set 1 (some (tombstone_of
          { key := bob, action := WAL_ACT_INSERT, keylen := 3, offset := some 200 })) } ∧
    { key := bob, keylen := bob.length, offset := some 200, action := WAL_ACT_REMOVE } ∈
      (wal_flush env16 (wal_remove env16 scenario_store bob bob.length)).1 :=
  ⟨by decide, scenario_store_reachable, by decide, by decide, by decide,
    (C17_remove_keeps_offset env16 (by decide) scenario_store scenario_store_reachable bob 1
      { key := bob, action := WAL_ACT_INSERT, keylen := 3, offset := some 200 } 200
      (by decide) (by decide) rfl rfl).1,
    (C17_remove_keeps_offset env16 (by decide) scenario_store scenario_store_reachable bob 1
      { key := bob, action := WAL_ACT_INSERT, keylen := 3, offset := some 200 } 200
      (by decide) (by decide) rfl rfl).2.2.2.2.2 (by decide)⟩

end Wal
